import Mathlib

set_option maxHeartbeats 1600000

/-! Shallow embedding of the tree-hugger-js core: the syntax-tree wrapper
(`TreeNode`), the CSS-like pattern compiler (`PatternParser`), the query
engine (`findNode` / `findAllNodes`), and the text-edit engine (`Transform`).
Source text is modelled as `List Char` (JS strings indexed by code units);
all machine integers involved are non-negative array indices, modelled as
`Nat`. -/

/- Raw syntax-tree node as exposed by the external parser (tree-sitter's
`SyntaxNode`): a type tag, start/end byte offsets into the source, and the
ordered list of children, each optionally tagged with the field name under
which `childForFieldName` exposes it. -/

mutual
inductive TSNode : Type where
  | mk (ty : String) (startIndex endIndex : Nat) (children : TSForest)
inductive TSForest : Type where
  | nil
  | cons (tag : Option String) (head : TSNode) (tail : TSForest)
end

def TSNode.type : TSNode → String
  | .mk t _ _ _ => t

def TSNode.startIndex : TSNode → Nat
  | .mk _ s _ _ => s

def TSNode.endIndex : TSNode → Nat
  | .mk _ _ e _ => e

def TSNode.childForest : TSNode → TSForest
  | .mk _ _ _ f => f

/-- Plain list of the children of a forest (tree-sitter `node.children`). -/
def TSForest.nodes : TSForest → List TSNode
  | .nil => []
  | .cons _ h t => h :: t.nodes

/-- First child carrying the given field tag (tree-sitter
`node.childForFieldName(name)`). -/
def TSForest.fieldLookup : TSForest → String → Option TSNode
  | .nil, _ => none
  | .cons tag h t, name => if tag = some name then some h else t.fieldLookup name

def TSNode.childForFieldName (n : TSNode) (name : String) : Option TSNode :=
  n.childForest.fieldLookup name

/-- JS `string.slice(s, e)` for non-negative in-range-clamped indices. -/
def sliceL (src : List Char) (s e : Nat) : List Char :=
  (src.take e).drop s

/-- The `TreeNode` wrapper of `node-wrapper.ts`: an underlying node, the
source text, and the chain of parent nodes (nearest first), which stands for
the `parent` back-reference. -/
structure TreeNode where
  sourceCode : List Char
  node : TSNode
  parents : List TSNode

def TreeNode.type (c : TreeNode) : String := c.node.type

def TreeNode.text (c : TreeNode) : List Char :=
  sliceL c.sourceCode c.node.startIndex c.node.endIndex

def TreeNode.parent (c : TreeNode) : Option TreeNode :=
  match c.parents with
  | [] => none
  | p :: ps => some ⟨c.sourceCode, p, ps⟩

/-- `TreeNode.name`: text of the child under field `name`, when present. -/
def TreeNode.name (c : TreeNode) : Option (List Char) :=
  (c.node.childForFieldName "name").map fun f =>
    sliceL c.sourceCode f.startIndex f.endIndex

/-- Wrap every child of a forest, recording the wrapping node as parent. -/
def TSForest.wrapAll (src : List Char) (ps : List TSNode) : TSForest → List TreeNode
  | .nil => []
  | .cons _ h t => ⟨src, h, ps⟩ :: t.wrapAll src ps

def TreeNode.children (c : TreeNode) : List TreeNode :=
  c.node.childForest.wrapAll c.sourceCode (c.node :: c.parents)

/- Query engine, `findAllNodes`: collect this node when the predicate holds,
then recurse into the children in order (depth-first pre-order). -/
mutual
def TSNode.findAllAux (p : TreeNode → Bool) (src : List Char) :
    List TSNode → TSNode → List TreeNode
  | ps, .mk ty s e f =>
    (if p ⟨src, .mk ty s e f, ps⟩ then [(⟨src, .mk ty s e f, ps⟩ : TreeNode)] else []) ++
      TSForest.findAllAux p src (.mk ty s e f :: ps) f
def TSForest.findAllAux (p : TreeNode → Bool) (src : List Char) :
    List TSNode → TSForest → List TreeNode
  | _, .nil => []
  | ps, .cons _ h t => TSNode.findAllAux p src ps h ++ TSForest.findAllAux p src ps t
end

def TreeNode.findAllNodes (c : TreeNode) (p : TreeNode → Bool) : List TreeNode :=
  TSNode.findAllAux p c.sourceCode c.parents c.node

/- Query engine, `findNode`: test this node first, then the children in
order, returning the first success anywhere in the subtree. -/
mutual
def TSNode.findAux (p : TreeNode → Bool) (src : List Char) :
    List TSNode → TSNode → Option TreeNode
  | ps, .mk ty s e f =>
    if p ⟨src, .mk ty s e f, ps⟩ then some ⟨src, .mk ty s e f, ps⟩
    else TSForest.findAux p src (.mk ty s e f :: ps) f
def TSForest.findAux (p : TreeNode → Bool) (src : List Char) :
    List TSNode → TSForest → Option TreeNode
  | _, .nil => none
  | ps, .cons _ h t =>
    match TSNode.findAux p src ps h with
    | some r => some r
    | none => TSForest.findAux p src ps t
end

def TreeNode.findNode (c : TreeNode) (p : TreeNode → Bool) : Option TreeNode :=
  TSNode.findAux p c.sourceCode c.parents c.node

/- Reference traversal order: a node followed by the pre-order lists of its
children, left to right.  This is the specification-side description of the
visit order; the engine's functions are proved against it. -/
mutual
def TSNode.preorderAux (src : List Char) : List TSNode → TSNode → List TreeNode
  | ps, .mk ty s e f =>
    (⟨src, .mk ty s e f, ps⟩ : TreeNode) :: TSForest.preorderAux src (.mk ty s e f :: ps) f
def TSForest.preorderAux (src : List Char) : List TSNode → TSForest → List TreeNode
  | _, .nil => []
  | ps, .cons _ h t => TSNode.preorderAux src ps h ++ TSForest.preorderAux src ps t
end

def TreeNode.preorderList (c : TreeNode) : List TreeNode :=
  TSNode.preorderAux c.sourceCode c.parents c.node

/-! Pattern language: the selector AST, the recursive-descent parser
(`PatternParser.parse`) and the predicate compiler of `tree-hugger.ts`. -/
/-- JS `/\s/` test used by `skipWhitespace` (ASCII whitespace). -/
def isWsChar (c : Char) : Bool :=
  c = ' ' || c = '\t' || c = '\n' || c = '\r' || c = Char.ofNat 11 || c = Char.ofNat 12

/-- JS `/[a-zA-Z_]/` (`isIdentifierStart`). -/
def isIdentStartChar (c : Char) : Bool :=
  ('a' ≤ c && c ≤ 'z') || ('A' ≤ c && c ≤ 'Z') || c = '_'

/-- JS `/[a-zA-Z0-9_-]/` (the `parseIdentifier` character class). -/
def isIdentChar (c : Char) : Bool :=
  isIdentStartChar c || ('0' ≤ c && c ≤ '9') || c = '-'

def trimLeadingWs : List Char → List Char
  | [] => []
  | c :: r => if isWsChar c then trimLeadingWs r else c :: r

/-- JS `string.trim()`. -/
def jsTrim (l : List Char) : List Char :=
  ((trimLeadingWs l).reverse |> trimLeadingWs).reverse

/-- Length of the leading whitespace run (the `skipWhitespace` loop). -/
def wsRun : List Char → Nat
  | [] => 0
  | c :: r => if isWsChar c then wsRun r + 1 else 0

/-- Characters consumed by the `parseIdentifier` loop. -/
def identRun : List Char → List Char
  | [] => []
  | c :: r => if isIdentChar c then c :: identRun r else []

/-- JS `input[pos] || ''`, with out-of-bounds read modelled as `none`. -/
def peekAt (input : List Char) (pos : Nat) : Option Char :=
  input[pos]?

/- Selector AST (`Selector` in `tree-hugger.ts`): type selector, attribute
selector, pseudo selector (argument kept as the raw balanced substring, to be
re-parsed at compile time exactly as the code does), child and descendant
combinators, and conjunction. -/
mutual
inductive Selector : Type where
  | typeSel (value : String)
  | attrSel (name op : String) (value : Option String)
  | pseudo (name : String) (value : Option String)
  | child (left right : Selector)
  | descendant (left right : Selector)
  | combination (selectors : SelList)
inductive SelList : Type where
  | nil
  | cons (head : Selector) (tail : SelList)
end

def listToSelList : List Selector → SelList
  | [] => .nil
  | s :: r => .cons s (listToSelList r)

/-- `expect(char)`: consume exactly the given character or fail. -/
def expectChar (input : List Char) (pos : Nat) (ch : Char) : Except String Nat :=
  if peekAt input pos = some ch then .ok (pos + 1)
  else .error "unexpected character"

def skipWhitespacePos (input : List Char) (pos : Nat) : Nat :=
  pos + wsRun (input.drop pos)

/-- `parseIdentifier`: the consumed identifier and the new cursor. -/
def parseIdentifierPos (input : List Char) (pos : Nat) : String × Nat :=
  let cs := identRun (input.drop pos)
  (⟨cs⟩, pos + cs.length)

/-- `parseUntil(char)` scan: collected value and number of consumed input
characters; a backslash escapes the terminator and is otherwise kept. -/
def untilRun (q : Char) : List Char → (List Char × Nat)
  | [] => ([], 0)
  | c :: r =>
    if c = q then ([], 0)
    else if c = '\\' && !r.isEmpty then
      match r with
      | [] => ([c], 1)
      | c2 :: r2 =>
        let (res, n) := untilRun q r2
        (if c2 = q then q :: res else '\\' :: c2 :: res, n + 2)
    else
      let (res, n) := untilRun q r
      (c :: res, n + 1)

/-- `parseBalanced(closeChar)` scan with explicit nesting depth. -/
def balancedRun (openC closeC : Char) : Nat → List Char → (List Char × Nat)
  | _, [] => ([], 0)
  | depth, c :: r =>
    if c = openC then
      let (res, n) := balancedRun openC closeC (depth + 1) r
      (c :: res, n + 1)
    else if c = closeC then
      if depth = 0 then ([], 0)
      else
        let (res, n) := balancedRun openC closeC (depth - 1) r
        (c :: res, n + 1)
    else
      let (res, n) := balancedRun openC closeC depth r
      (c :: res, n + 1)

def parseAttributeValue (input : List Char) (pos : Nat) : Except String (String × Nat) :=
  let pos1 := skipWhitespacePos input pos
  match peekAt input pos1 with
  | some c =>
    if c = '"' || c = Char.ofNat 39 then
      let (res, n) := untilRun c (input.drop (pos1 + 1))
      match expectChar input (pos1 + 1 + n) c with
      | .ok pos2 => .ok (⟨res⟩, pos2)
      | .error e => .error e
    else
      .ok (parseIdentifierPos input pos1)
  | none => .ok (parseIdentifierPos input pos1)

/-- `parseAttribute`: `[name]`, `[name=value]`, `[name~=v]`, `[name^=v]`,
`[name$=v]`, `[name*=v]`, with quoted or bare values. -/
def parseAttribute (input : List Char) (pos : Nat) : Except String (Selector × Nat) := do
  let pos ← expectChar input pos '['
  let pos := skipWhitespacePos input pos
  let (name, pos) := parseIdentifierPos input pos
  let pos := skipWhitespacePos input pos
  let (op, value, pos) ←
    if peekAt input pos = some '=' then do
      let (v, pos2) ← parseAttributeValue input (pos + 1)
      pure ("=", some v, pos2)
    else if peekAt input pos = some '~' && peekAt input (pos + 1) = some '=' then do
      let (v, pos2) ← parseAttributeValue input (pos + 2)
      pure ("~=", some v, pos2)
    else if peekAt input pos = some '^' && peekAt input (pos + 1) = some '=' then do
      let (v, pos2) ← parseAttributeValue input (pos + 2)
      pure ("^=", some v, pos2)
    else if peekAt input pos = some '$' && peekAt input (pos + 1) = some '=' then do
      let (v, pos2) ← parseAttributeValue input (pos + 2)
      pure ("$=", some v, pos2)
    else if peekAt input pos = some '*' && peekAt input (pos + 1) = some '=' then do
      let (v, pos2) ← parseAttributeValue input (pos + 2)
      pure ("*=", some v, pos2)
    else
      pure ("=", (none : Option String), pos)
  let pos := skipWhitespacePos input pos
  let pos ← expectChar input pos ']'
  return (.attrSel name op value, pos)

/-- `parsePseudo`: `:name` or `:name(argument)` with a balanced argument. -/
def parsePseudo (input : List Char) (pos : Nat) : Except String (Selector × Nat) := do
  let pos ← expectChar input pos ':'
  let (name, pos) := parseIdentifierPos input pos
  if peekAt input pos = some '(' then
    let (res, n) := balancedRun '(' ')' 0 (input.drop (pos + 1))
    let pos2 ← expectChar input (pos + 1 + n) ')'
    return (.pseudo name (some ⟨res⟩), pos2)
  else
    return (.pseudo name none, pos)

/-- Conjunction step of `parseSimpleSelector`: a second part is combined with
an already-parsed one into a `combination`. -/
def combineSel : Option Selector → Selector → Selector
  | none, b => b
  | some a, b => .combination (.cons a (.cons b .nil))

def isIdentStartOpt : Option Char → Bool
  | some c => isIdentStartChar c
  | none => false

/-- Attribute/pseudo block loop of `parseSimpleSelector`.  The fuel only
bounds the loop; every iteration consumes at least one input character, so
`input.length + 1` is always enough. -/
def parseSimpleLoop (input : List Char) : Nat → Option Selector → Nat → Except String (Selector × Nat)
  | 0, _, _ => .error "out of fuel"
  | fuel + 1, sel, pos =>
    match peekAt input pos with
    | some c =>
      if c = '[' then do
        let (a, pos2) ← parseAttribute input pos
        parseSimpleLoop input fuel (some (combineSel sel a)) pos2
      else if c = ':' then do
        let (ps, pos2) ← parsePseudo input pos
        parseSimpleLoop input fuel (some (combineSel sel ps)) pos2
      else
        match sel with
        | some s => .ok (s, pos)
        | none => .error "Expected selector"
    | none =>
      match sel with
      | some s => .ok (s, pos)
      | none => .error "Expected selector"

/-- `parseSimpleSelector`: optional type identifier followed by attribute and
pseudo blocks. -/
def parseSimpleSelector (input : List Char) (fuel pos : Nat) : Except String (Selector × Nat) :=
  if isIdentStartOpt (peekAt input pos) then
    let (ty, pos2) := parseIdentifierPos input pos
    parseSimpleLoop input fuel (some (.typeSel ty)) pos2
  else
    parseSimpleLoop input fuel none pos

/-- Main loop of `parseSelector`; the accumulator holds the parsed selectors
in reverse push order (`selectors.pop()` is the head). -/
def parseSelectorLoop (input : List Char) : Nat → List Selector → Nat → Except String (List Selector)
  | 0, _, _ => .error "out of fuel"
  | fuel + 1, acc, pos =>
    let pos := skipWhitespacePos input pos
    match peekAt input pos with
    | none => .ok acc
    | some c =>
      if c = '>' then do
        let pos2 := skipWhitespacePos input (pos + 1)
        let (right, pos3) ← parseSimpleSelector input fuel pos2
        match acc with
        | [] => .error "Invalid child combinator"
        | left :: rest => parseSelectorLoop input fuel (.child left right :: rest) pos3
      else if c = ',' then
        parseSelectorLoop input fuel acc (pos + 1)
      else do
        let (sel, pos2) ← parseSimpleSelector input fuel pos
        let pos3 := skipWhitespacePos input pos2
        match peekAt input pos3 with
        | some c2 =>
          if c2 ≠ '>' && c2 ≠ ',' then do
            let (right, pos4) ← parseSimpleSelector input fuel pos3
            parseSelectorLoop input fuel (.descendant sel right :: acc) pos4
          else
            parseSelectorLoop input fuel (sel :: acc) pos3
        | none => parseSelectorLoop input fuel (sel :: acc) pos3

/-- `parseSelector` on a whole (already trimmed) input. -/
def parseSelectorTop (input : List Char) : Except String Selector := do
  let acc ← parseSelectorLoop input (input.length + 1) [] 0
  match acc with
  | [s] => .ok s
  | _ => .ok (.combination (listToSelList acc.reverse))

/-- `PatternParser.parse` up to predicate compilation: trim, short-circuit the
empty pattern, then run the recursive-descent parser.  Failure corresponds to
the `catch` branch of the code, which substitutes the match-nothing
predicate. -/
def PatternParser.parse (pattern : String) : Except String Selector :=
  let input := jsTrim pattern.data
  if input.isEmpty then .error "empty pattern"
  else parseSelectorTop input

/-! Predicate compiler (`compilePredicate`, `compileAttributePredicate`,
`compilePseudoPredicate`, `matchValue`) and the alias table. -/
/-- The static `NODE_TYPE_ALIASES` table. -/
def NODE_TYPE_ALIASES : List (String × List String) :=
  [("function", ["function_declaration", "function_expression", "arrow_function",
      "method_definition"]),
   ("arrow", ["arrow_function"]),
   ("method", ["method_definition"]),
   ("class", ["class_declaration", "class_expression"]),
   ("interface", ["interface_declaration"]),
   ("variable", ["variable_declarator"]),
   ("const", ["lexical_declaration"]),
   ("let", ["lexical_declaration"]),
   ("var", ["variable_declaration"]),
   ("string", ["string", "template_string"]),
   ("template", ["template_string"]),
   ("loop", ["for_statement", "while_statement", "do_statement", "for_in_statement",
      "for_of_statement"]),
   ("for", ["for_statement", "for_in_statement", "for_of_statement"]),
   ("while", ["while_statement", "do_statement"]),
   ("condition", ["if_statement", "switch_statement", "ternary_expression"]),
   ("if", ["if_statement"]),
   ("switch", ["switch_statement"]),
   ("ternary", ["ternary_expression"]),
   ("import", ["import_statement"]),
   ("export", ["export_statement"]),
   ("jsx", ["jsx_element", "jsx_self_closing_element", "jsx_fragment"]),
   ("jsx-element", ["jsx_element", "jsx_self_closing_element"]),
   ("jsx-attribute", ["jsx_attribute"]),
   ("comment", ["comment"]),
   ("call", ["call_expression"]),
   ("new", ["new_expression"]),
   ("return", ["return_statement"]),
   ("throw", ["throw_statement"]),
   ("statement", ["expression_statement", "block_statement", "empty_statement"]),
   ("block", ["block_statement", "statement_block"])]

def aliasLookup (name : String) : Option (List String) :=
  (NODE_TYPE_ALIASES.find? (fun kv => kv.1 = name)).map (·.2)

/-- JS `string.split(/\s+/)` on the accumulated reversed token. -/
def jsSplitWsGo : List Char → List Char → List (List Char)
  | cur, [] => [cur.reverse]
  | cur, c :: r =>
    if isWsChar c then
      match r with
      | [] => [cur.reverse, []]
      | c2 :: r2 =>
        if isWsChar c2 then jsSplitWsGo cur (c2 :: r2)
        else cur.reverse :: jsSplitWsGo [] (c2 :: r2)
    else jsSplitWsGo (c :: cur) r

def jsSplitWs (l : List Char) : List (List Char) :=
  jsSplitWsGo [] l

/-- JS `string.includes(sub)`. -/
def listIncludes (hay pat : List Char) : Bool :=
  decide (pat <:+: hay)

/-- JS `string.startsWith(sub)`. -/
def listStarts (hay pat : List Char) : Bool :=
  decide (pat <+: hay)

/-- JS `string.endsWith(sub)`. -/
def listEnds (hay pat : List Char) : Bool :=
  decide (pat <:+ hay)

/-- `matchValue(actual, operator, expected)`: a missing or empty expected
value is an existence check; an empty actual never matches a non-empty
expected; otherwise the five operators compare raw text. -/
def matchValue (actual : List Char) (op : String) (expected : Option String) : Bool :=
  match expected with
  | none => true
  | some e =>
    if e.data.isEmpty then true
    else if actual.isEmpty then false
    else if op = "=" then actual == e.data
    else if op = "~=" then (jsSplitWs actual).contains e.data
    else if op = "^=" then listStarts actual e.data
    else if op = "$=" then listEnds actual e.data
    else if op = "*=" then listIncludes actual e.data
    else false

/-- JSX fallback of the `name` attribute: inspect the first child when it is
a property identifier. -/
def jsxNameFallback (op : String) (value : Option String) (c : TreeNode) : Bool :=
  if c.type = "jsx_attribute" then
    match c.children.head? with
    | some firstChild =>
      if firstChild.type = "property_identifier" then matchValue firstChild.text op value
      else false
    | none => false
  else false

/-- `compileAttributePredicate`: the special attributes `name`, `async` and
`text`, then named-field lookup. -/
def compileAttributePredicate (name op : String) (value : Option String) (c : TreeNode) : Bool :=
  if name = "name" then
    match c.name with
    | some nodeName =>
      if nodeName.isEmpty then jsxNameFallback op value c
      else matchValue nodeName op value
    | none => jsxNameFallback op value c
  else if name = "async" then listIncludes c.text "async".data
  else if name = "text" then matchValue c.text op value
  else if name = "" then false
  else
    match c.node.childForFieldName name with
    | some field => matchValue (sliceL c.sourceCode field.startIndex field.endIndex) op value
    | none => false

/- The `checkDescendants` helper of `compilePseudoPredicate`: does the node
itself or any of its descendants satisfy the predicate. -/
mutual
def TSNode.selfOrDescAny (p : TreeNode → Bool) (src : List Char) : List TSNode → TSNode → Bool
  | ps, .mk ty s e f =>
    p ⟨src, .mk ty s e f, ps⟩ || TSForest.descAnyAux p src (.mk ty s e f :: ps) f
def TSForest.descAnyAux (p : TreeNode → Bool) (src : List Char) : List TSNode → TSForest → Bool
  | _, .nil => false
  | ps, .cons _ h t => TSNode.selfOrDescAny p src ps h || TSForest.descAnyAux p src ps t
end

/-- `:has(...)` search domain: any descendant at any depth, the node itself
excluded. -/
def TreeNode.strictDescAny (c : TreeNode) (p : TreeNode → Bool) : Bool :=
  TSForest.descAnyAux p c.sourceCode (c.node :: c.parents) c.node.childForest

/-- Upward walk of the `descendant` combinator: some strict ancestor
satisfies the predicate. -/
def ancestorAny (p : TreeNode → Bool) (src : List Char) : List TSNode → Bool
  | [] => false
  | a :: ps => p ⟨src, a, ps⟩ || ancestorAny p src ps

/- `compilePredicate`, parameterized by the function used to turn the raw
pseudo-selector argument string back into a predicate (the code calls
`new PatternParser().parse(value)` there; the knot is tied below in
`parsePredN`). -/
mutual
def compileWith (inner : String → TreeNode → Bool) : Selector → TreeNode → Bool
  | .typeSel v => fun c =>
    match aliasLookup v with
    | some aliasedTypes => aliasedTypes.contains c.type
    | none => c.type == v
  | .attrSel name op value => fun c => compileAttributePredicate name op value c
  | .pseudo name value => fun c =>
    if name = "has" then
      match value with
      | some v => TreeNode.strictDescAny c (inner v)
      | none => false
    else if name = "not" then
      match value with
      | some v => !(inner v c)
      | none => false
    else false
  | .child l r => fun c =>
    compileWith inner r c &&
      (match c.parent with
       | none => false
       | some p => compileWith inner l p)
  | .descendant l r => fun c =>
    compileWith inner r c && ancestorAny (compileWith inner l) c.sourceCode c.parents
  | .combination ss => fun c => compileListWith inner ss c
def compileListWith (inner : String → TreeNode → Bool) : SelList → TreeNode → Bool
  | .nil => fun _ => true
  | .cons h t => fun c => compileWith inner h c && compileListWith inner t c
end

/-- Pattern-to-predicate pipeline with a structural recursion bound.  Pseudo
arguments produced by the parser are strictly shorter than the pattern they
came from (they sit inside `:name(...)`), so the guard `v.length <
pattern.length` never fires on real parses and the fuel `pattern.length + 1`
used by `PatternParser.parsePredicate` is always sufficient; fuel
insensitivity is proved in `parsePredN_stable`. -/
def parsePredN : Nat → String → TreeNode → Bool
  | 0, _ => fun _ => false
  | fuel + 1, pattern =>
    match PatternParser.parse pattern with
    | .error _ => fun _ => false
    | .ok sel =>
      compileWith (fun v => if v.length < pattern.length then parsePredN fuel v else fun _ => false) sel

/-- `PatternParser.parse` as used by callers: a total pattern-to-predicate
function; unparseable and empty patterns yield the match-nothing predicate. -/
def PatternParser.parsePredicate (pattern : String) : TreeNode → Bool :=
  parsePredN (pattern.length + 1) pattern

/-- `TreeNode.findAll(pattern)` (`parsePattern` never reaches its catch
fallback because `PatternParser.parse` already absorbs parse failures). -/
def TreeNode.findAll (c : TreeNode) (pattern : String) : List TreeNode :=
  c.findAllNodes (PatternParser.parsePredicate pattern)

/-- `TreeNode.find(pattern)`. -/
def TreeNode.find (c : TreeNode) (pattern : String) : Option TreeNode :=
  c.findNode (PatternParser.parsePredicate pattern)

/-- Convenience constructor for concrete trees. -/
def TSForest.ofList : List (Option String × TSNode) → TSForest
  | [] => .nil
  | (t, n) :: r => .cons t n (TSForest.ofList r)

/- Raw pseudo-argument strings occurring in a selector: the only strings the
compiled predicate ever re-parses. -/
mutual
def selValues : Selector → List String
  | .typeSel _ => []
  | .attrSel _ _ _ => []
  | .pseudo _ none => []
  | .pseudo _ (some v) => [v]
  | .child l r => selValues l ++ selValues r
  | .descendant l r => selValues l ++ selValues r
  | .combination ss => selListValues ss
def selListValues : SelList → List String
  | .nil => []
  | .cons h t => selValues h ++ selListValues t
end

/-! Edit engine (`transform.ts`).  A transform session owns the original
source and an append-only edit list; each operation takes the current list
and returns the extended one, mirroring `this.edits.push` inside the
`forEach` loops of the code. -/
/-- An `Edit`: byte range over the original source plus the replacement
text.  The `end` field of the code is called `stop` here (`end` is a Lean
keyword). -/
structure Edit where
  start : Nat
  stop : Nat
  text : List Char
deriving DecidableEq

/-- `TransformError` payloads raised by `toString`/`validateEdits`. -/
inductive TransformError where
  | overlap (current next : Edit)
  | outOfBounds (edit : Edit)
deriving DecidableEq

def editLeAsc (a b : Edit) : Prop := a.start ≤ b.start

instance : DecidableRel editLeAsc := fun a b => Nat.decLe a.start b.start

instance : IsTotal Edit editLeAsc := ⟨fun a b => Nat.le_total a.start b.start⟩

instance : IsTrans Edit editLeAsc := ⟨fun _ _ _ h1 h2 => Nat.le_trans h1 h2⟩

def editLeDesc (a b : Edit) : Prop := b.start ≤ a.start

instance : DecidableRel editLeDesc := fun a b => Nat.decLe b.start a.start

instance : IsTotal Edit editLeDesc := ⟨fun a b => Nat.le_total b.start a.start⟩

instance : IsTrans Edit editLeDesc := ⟨fun _ _ _ h1 h2 => Nat.le_trans h2 h1⟩

/-- JS `[...edits].sort((a, b) => a.start - b.start)`: a stable sort by start
offset, modelled by insertion sort (stable for equal keys). -/
def sortByStartAsc (edits : List Edit) : List Edit :=
  edits.insertionSort editLeAsc

/-- JS `[...edits].sort((a, b) => b.start - a.start)`. -/
def sortByStartDesc (edits : List Edit) : List Edit :=
  edits.insertionSort editLeDesc

/-- Adjacent-pair scan of `validateEdits` over the sorted list. -/
def adjacentViolation : List Edit → Option (Edit × Edit)
  | a :: b :: rest => if a.stop > b.start then some (a, b) else adjacentViolation (b :: rest)
  | _ => none

/-- `Transform.validateEdits`: sort a copy by start offset and report the
first adjacent pair whose ranges overlap. -/
def validateEdits (edits : List Edit) : Option (Edit × Edit) :=
  adjacentViolation (sortByStartAsc edits)

/-- Application loop of `toString`: each edit is bounds-checked against the
original source length, then spliced into the current result. -/
def applyEditsLoop (srcLen : Nat) : List Edit → List Char → Except TransformError (List Char)
  | [], result => .ok result
  | e :: rest, result =>
    if e.stop > srcLen then .error (.outOfBounds e)
    else applyEditsLoop srcLen rest (sliceL result 0 e.start ++ e.text ++ result.drop e.stop)

/-- `Transform.toString`: validate, then apply all edits in descending
start-offset order to the original source, producing a new string. -/
def Transform.toString (edits : List Edit) (src : List Char) : Except TransformError (List Char) :=
  match validateEdits edits with
  | some (current, next) => .error (.overlap current next)
  | none => applyEditsLoop src.length (sortByStartDesc edits) src

/-- Nonempty intersection of the half-open byte ranges of two edits. -/
def rangesIntersect (a b : Edit) : Prop :=
  max a.start b.start < min a.stop b.stop

instance (a b : Edit) : Decidable (rangesIntersect a b) :=
  Nat.decLt (max a.start b.start) (min a.stop b.stop)

/-- The fixed statement-like classification shared by `remove`,
`insertBefore` and `insertAfter`. -/
def statementTypes : List String :=
  ["expression_statement", "variable_declaration", "lexical_declaration", "import_statement",
   "export_statement", "return_statement", "if_statement", "for_statement", "while_statement",
   "function_declaration", "class_declaration"]

def Transform.isStatement (c : TreeNode) : Bool :=
  statementTypes.contains c.type

/-- Backward scan of `findLineStart`: length of the run of characters before
the index up to the previous newline. -/
def backToNl : List Char → Nat
  | [] => 0
  | c :: r => if c = '\n' then 0 else backToNl r + 1

def Transform.findLineStart (src : List Char) (index : Nat) : Nat :=
  index - backToNl ((src.take index).reverse)

/-- Forward scan: length of the run of characters from the index up to the
next newline. -/
def fwdToNl : List Char → Nat
  | [] => 0
  | c :: r => if c = '\n' then 0 else fwdToNl r + 1

def Transform.extractIndentation (src : List Char) (lineStart : Nat) : List Char :=
  (src.drop lineStart).takeWhile (fun c => c = ' ' || c = '\t')

/-! String replacement: JS `text.replace(pattern, replacement)` for a string
pattern replaces only the first occurrence and expands `$`-templates in the
replacement. -/
/-- JS `string.indexOf(pat)` starting from a given index. -/
def firstIndexOfFrom (pat : List Char) : Nat → List Char → Option Nat
  | i, [] => if pat.isEmpty then some i else none
  | i, c :: r => if listStarts (c :: r) pat then some i else firstIndexOfFrom pat (i + 1) r

def firstIndexOf (hay pat : List Char) : Option Nat :=
  firstIndexOfFrom pat 0 hay

/-- JS replacement-template expansion for a string pattern (no capture
groups): a doubled dollar gives a dollar, dollar-ampersand the matched text,
dollar-backquote the text before the match, dollar-quote the text after it;
anything else is literal. -/
def expandRepl (matched before after : List Char) : List Char → List Char
  | [] => []
  | ['$'] => ['$']
  | '$' :: c :: r =>
    if c = '$' then '$' :: expandRepl matched before after r
    else if c = '&' then matched ++ expandRepl matched before after r
    else if c = Char.ofNat 96 then before ++ expandRepl matched before after r
    else if c = Char.ofNat 39 then after ++ expandRepl matched before after r
    else '$' :: c :: expandRepl matched before after r
  | c :: r => c :: expandRepl matched before after r

/-- JS `text.replace(pat, repl)` with a string pattern: first occurrence
only. -/
def jsReplaceFirst (text pat repl : List Char) : List Char :=
  match firstIndexOf text pat with
  | none => text
  | some i =>
    text.take i ++ expandRepl pat (text.take i) (text.drop (i + pat.length)) repl ++
      text.drop (i + pat.length)

/-- `Transform.replaceIn` loop: one full-range edit per selected node whose
text actually changes. -/
def Transform.replaceInGo (pat repl : String) : List TreeNode → List Edit → List Edit
  | [], edits => edits
  | node :: rest, edits =>
    let newText := jsReplaceFirst node.text pat.data repl.data
    if newText ≠ node.text then
      Transform.replaceInGo pat repl rest
        (edits ++ [⟨node.node.startIndex, node.node.endIndex, newText⟩])
    else Transform.replaceInGo pat repl rest edits

def Transform.replaceIn (root : TreeNode) (nodeType pat repl : String) (edits : List Edit) :
    List Edit :=
  Transform.replaceInGo pat repl (root.findAll nodeType) edits

/-- Pattern-coercion heuristics of `Transform.remove`: dot patterns become a
call-expression text search; otherwise `()`-suffixed patterns are stripped
and searched with a trailing open parenthesis. -/
def removeActualPattern (pattern : String) : String :=
  if pattern.data.contains '.' && !(pattern.data.contains '[') && !(pattern.data.contains ' ') then
    "call_expression[text*=\"" ++ pattern ++ "\"]"
  else if listEnds pattern.data "()".data then
    let funcName : String := ⟨pattern.data.dropLast.dropLast⟩
    "call_expression[text*=\"" ++ funcName ++ "(\"]"
  else pattern

/-- Byte range removed for one matched node: sole variable declarators widen
to the whole declaration; statement-like targets expand to the full source
line including its trailing newline. -/
def Transform.removeRange (src : List Char) (node : TreeNode) : Nat × Nat :=
  let (nodeToRemove, start0, end0) :=
    if node.type = "variable_declarator" then
      match node.parent with
      | some declaration =>
        if (declaration.findAll "variable_declarator").length = 1 then
          (declaration, declaration.node.startIndex, declaration.node.endIndex)
        else (node, node.node.startIndex, node.node.endIndex)
      | none => (node, node.node.startIndex, node.node.endIndex)
    else (node, node.node.startIndex, node.node.endIndex)
  if Transform.isStatement nodeToRemove then
    let s := Transform.findLineStart src start0
    let e1 := end0 + fwdToNl (src.drop end0)
    (s, if peekAt src e1 = some '\n' then e1 + 1 else e1)
  else (start0, end0)

def Transform.removeGo (src : List Char) : List TreeNode → List Edit → List Edit
  | [], edits => edits
  | node :: rest, edits =>
    let (s, e) := Transform.removeRange src node
    Transform.removeGo src rest (edits ++ [⟨s, e, []⟩])

def Transform.remove (root : TreeNode) (src : List Char) (pattern : String) (edits : List Edit) :
    List Edit :=
  Transform.removeGo src (root.findAll (removeActualPattern pattern)) edits

/-- Whether a node sits inside an import statement (the ancestor walk of the
used-identifier filter). -/
def insideImport (c : TreeNode) : Bool :=
  c.parents.any fun p => p.type = "import_statement"

/-- The used-identifier set: texts of all identifiers outside the
import-statement subtrees. -/
def Transform.usedIdentifiers (root : TreeNode) : List (List Char) :=
  ((root.findAll "identifier").filter (fun id => !insideImport id)).map (·.text)

/-- Per-import check of `removeUnusedImports`: default import, named
specifiers (`name` field, falling back to `alias`), namespace import. -/
def Transform.importHasUsed (allIdentifiers : List (List Char)) (src : List Char)
    (importNode : TreeNode) : Bool :=
  let defaultUsed :=
    match importNode.find "import_clause > identifier" with
    | some defaultImport => allIdentifiers.contains defaultImport.text
    | none => false
  let namedUsed :=
    (importNode.findAll "import_specifier").any fun spec =>
      match (spec.node.childForFieldName "name").orElse
          (fun _ => spec.node.childForFieldName "alias") with
      | some imported => allIdentifiers.contains (sliceL src imported.startIndex imported.endIndex)
      | none => false
  let nsUsed :=
    match importNode.find "namespace_import > identifier" with
    | some namespaceImport => allIdentifiers.contains namespaceImport.text
    | none => false
  defaultUsed || namedUsed || nsUsed

def Transform.removeUnusedImportsGo (allIdentifiers : List (List Char)) (src : List Char) :
    List TreeNode → List Edit → List Edit
  | [], edits => edits
  | importNode :: rest, edits =>
    if Transform.importHasUsed allIdentifiers src importNode then
      Transform.removeUnusedImportsGo allIdentifiers src rest edits
    else
      let s := importNode.node.startIndex
      let e0 := importNode.node.endIndex
      Transform.removeUnusedImportsGo allIdentifiers src rest
        (edits ++ [⟨s, if peekAt src e0 = some '\n' then e0 + 1 else e0, []⟩])

/-- `Transform.removeUnusedImports`: queue for removal every import statement
none of whose bindings appears in the used-identifier set, including its
trailing newline when present. -/
def Transform.removeUnusedImports (root : TreeNode) (src : List Char) (edits : List Edit) :
    List Edit :=
  Transform.removeUnusedImportsGo (Transform.usedIdentifiers root) src
    (root.findAll "import_statement") edits

def keywordTypes : List String :=
  ["const", "let", "var", "return", "if", "for", "while"]

/-- Upward walk of the keyword-widening: nearest strict ancestor whose type
is statement-like. -/
def findStatementAncestor (src : List Char) : List TSNode → Option TreeNode
  | [] => none
  | p :: ps =>
    if Transform.isStatement ⟨src, p, ps⟩ then some ⟨src, p, ps⟩
    else findStatementAncestor src ps

/-- Target selection shared by the insert operations: keyword-typed matches
are widened to the nearest statement-like ancestor when one exists. -/
def widenTarget (node : TreeNode) : TreeNode :=
  if keywordTypes.contains node.type then
    match findStatementAncestor node.sourceCode node.parents with
    | some parent => parent
    | none => node
  else node

/-- Ancestor walk of `getContextualIndentation`. -/
def Transform.contextWalk (src : List Char) (nodeType : String) (baseIndentation : List Char) :
    List TSNode → List Char
  | [] => baseIndentation
  | p :: ps =>
    if p.type = "class_body" || p.type = "function_body" || p.type = "statement_block" ||
        p.type = "block" then
      baseIndentation
    else if p.type = "class_declaration" then
      if nodeType = "method_definition" then baseIndentation
      else Transform.extractIndentation src (Transform.findLineStart src p.startIndex)
    else Transform.contextWalk src nodeType baseIndentation ps

def Transform.getContextualIndentation (src : List Char) (node : TreeNode) : List Char :=
  let lineStart := Transform.findLineStart src node.node.startIndex
  let baseIndentation := Transform.extractIndentation src lineStart
  Transform.contextWalk src node.type baseIndentation node.parents

/-- First version of `Transform.insertBefore`: keyword widening, then a
zero-width edit at the target's start with indentation-aware formatting for
statement-level targets. -/
def Transform.insertBeforeGo (src : List Char) (text : String) :
    List TreeNode → List Edit → List Edit
  | [], edits => edits
  | node :: rest, edits =>
    let targetNode := widenTarget node
    let insertText :=
      if Transform.isStatement targetNode || targetNode.type = "function_declaration" ||
          targetNode.type = "method_definition" || targetNode.type = "class_declaration" then
        let lineStart := Transform.findLineStart src targetNode.node.startIndex
        let indentation := Transform.extractIndentation src lineStart
        let contextIndentation := Transform.getContextualIndentation src targetNode
        contextIndentation ++ jsTrim text.data ++ ['\n'] ++ indentation
      else text.data
    Transform.insertBeforeGo src text rest
      (edits ++ [⟨targetNode.node.startIndex, targetNode.node.startIndex, insertText⟩])

def Transform.insertBefore (root : TreeNode) (src : List Char) (pattern text : String)
    (edits : List Edit) : List Edit :=
  Transform.insertBeforeGo src text (root.findAll pattern) edits

/-- First version of `Transform.insertAfter`: keyword widening, then a
zero-width edit at the target's end with newline- and indentation-aware
formatting, including the class-method special case. -/
def Transform.insertAfterGo (src : List Char) (text : String) :
    List TreeNode → List Edit → List Edit
  | [], edits => edits
  | node :: rest, edits =>
    let targetNode := widenTarget node
    let insertText :=
      if Transform.isStatement targetNode || targetNode.type = "function_declaration" ||
          targetNode.type = "method_definition" || targetNode.type = "class_declaration" then
        let nextCharIndex := targetNode.node.endIndex
        let hasNewlineAfter := peekAt src nextCharIndex = some '\n'
        let lineStart := Transform.findLineStart src targetNode.node.startIndex
        let indentation := Transform.extractIndentation src lineStart
        if targetNode.type = "method_definition" &&
            (targetNode.parent).map TreeNode.type = some "class_body" then
          if !hasNewlineAfter then
            '\n' :: '\n' :: (indentation ++ jsTrim text.data)
          else if !(peekAt src (nextCharIndex + 1) = some '\n') then
            '\n' :: (indentation ++ jsTrim text.data)
          else indentation ++ jsTrim text.data ++ ['\n']
        else
          let contextIndentation := Transform.getContextualIndentation src targetNode
          if !hasNewlineAfter then '\n' :: (contextIndentation ++ jsTrim text.data)
          else contextIndentation ++ jsTrim text.data ++ ['\n']
      else text.data
    Transform.insertAfterGo src text rest
      (edits ++ [⟨targetNode.node.endIndex, targetNode.node.endIndex, insertText⟩])

def Transform.insertAfter (root : TreeNode) (src : List Char) (pattern text : String)
    (edits : List Edit) : List Edit :=
  Transform.insertAfterGo src text (root.findAll pattern) edits

/-- Second version of `Transform.insertBefore` (second copy of
`transform.ts`): a plain zero-width edit at each matched node's own start
offset — no keyword widening and no formatting. -/
def Transform.insertBeforeGoV2 (text : String) : List TreeNode → List Edit → List Edit
  | [], edits => edits
  | node :: rest, edits =>
    Transform.insertBeforeGoV2 text rest
      (edits ++ [⟨node.node.startIndex, node.node.startIndex, text.data⟩])

def Transform.insertBeforeV2 (root : TreeNode) (pattern text : String) (edits : List Edit) :
    List Edit :=
  Transform.insertBeforeGoV2 text (root.findAll pattern) edits

/-- Second version of `Transform.insertAfter`: keyword widening, then a plain
zero-width edit at the target's end offset. -/
def Transform.insertAfterGoV2 (text : String) : List TreeNode → List Edit → List Edit
  | [], edits => edits
  | node :: rest, edits =>
    let targetNode := widenTarget node
    Transform.insertAfterGoV2 text rest
      (edits ++ [⟨targetNode.node.endIndex, targetNode.node.endIndex, text.data⟩])

def Transform.insertAfterV2 (root : TreeNode) (pattern text : String) (edits : List Edit) :
    List Edit :=
  Transform.insertAfterGoV2 text (root.findAll pattern) edits

/-- Concrete call-expression node used to instantiate C10. -/
def nodeW10 : TreeNode := ⟨"foo.bar(x)".data, .mk "call_expression" 0 10 .nil, []⟩

/-- Concrete tree for the source `foo(foo)`: a call expression whose callee
and single argument are both spelled `foo`. -/
def srcC5 : List Char := "foo(foo)".data

def treeC5 : TSNode :=
  .mk "program" 0 8 (TSForest.ofList
    [(none, .mk "call_expression" 0 8 (TSForest.ofList
      [(some "function", .mk "identifier" 0 3 .nil),
       (some "arguments", .mk "arguments" 3 8 (TSForest.ofList
         [(none, .mk "(" 3 4 .nil), (none, .mk "identifier" 4 7 .nil),
          (none, .mk ")" 7 8 .nil)]))]))])

def rootC5 : TreeNode := ⟨srcC5, treeC5, []⟩

/-- Concrete tree for the source `function f() { do {} while (x); }`: the
`while` keyword of the do-while loop sits mid-statement, and its nearest
statement-like ancestor is the whole function declaration starting at
offset 0. -/
def srcC8 : List Char := "function f() \x7b do \x7b\x7d while (x); \x7d".data

def doStmtC8 : TSNode :=
  .mk "do_statement" 15 31 (TSForest.ofList
    [(none, .mk "do" 15 17 .nil),
     (some "body", .mk "statement_block" 18 20 (TSForest.ofList
       [(none, .mk "\x7b" 18 19 .nil), (none, .mk "\x7d" 19 20 .nil)])),
     (none, .mk "while" 21 26 .nil),
     (some "condition", .mk "parenthesized_expression" 27 30 (TSForest.ofList
       [(none, .mk "(" 27 28 .nil), (none, .mk "identifier" 28 29 .nil),
        (none, .mk ")" 29 30 .nil)])),
     (none, .mk ";" 30 31 .nil)])

def fnBlockC8 : TSNode :=
  .mk "statement_block" 13 33 (TSForest.ofList
    [(none, .mk "\x7b" 13 14 .nil), (none, doStmtC8), (none, .mk "\x7d" 32 33 .nil)])

def fnDeclC8 : TSNode :=
  .mk "function_declaration" 0 33 (TSForest.ofList
    [(none, .mk "function" 0 8 .nil), (some "name", .mk "identifier" 9 10 .nil),
     (some "parameters", .mk "formal_parameters" 10 12 (TSForest.ofList
       [(none, .mk "(" 10 11 .nil), (none, .mk ")" 11 12 .nil)])),
     (some "body", fnBlockC8)])

def treeC8 : TSNode := .mk "program" 0 33 (TSForest.ofList [(none, fnDeclC8)])

def rootC8 : TreeNode := ⟨srcC8, treeC8, []⟩

/-- The `while` keyword node of the do-while, in context. -/
def whileKwC8 : TreeNode :=
  ⟨srcC8, .mk "while" 21 26 .nil, [doStmtC8, fnBlockC8, fnDeclC8, treeC8]⟩

/-- Specification-side notion of use: the name occurs as the text of an
identifier node lying outside every import-statement subtree. -/
def usedOutsideImports (root : TreeNode) (t : List Char) : Bool :=
  root.preorderList.any fun d =>
    ((!insideImport d) && (d.type == "identifier")) && d.text == t

/-- Specification-side per-import condition (from the claim's words): an
unused import statement is one where neither its default binding (first pre-order
identifier under an `import_clause` parent), nor any named specifier (by
`name` field, falling back to `alias`), nor its namespace binding occurs as
identifier text outside import subtrees. -/
def importUnusedSpec (root : TreeNode) (src : List Char) (im : TreeNode) : Bool :=
  let defaultUsed :=
    match (im.preorderList.filter fun d =>
        d.type == "identifier" &&
          match d.parent with
          | some p => p.type == "import_clause"
          | none => false).head? with
    | some d => usedOutsideImports root d.text
    | none => false
  let namedUsed :=
    ((im.preorderList.filter fun d => d.type == "import_specifier").any fun sp =>
      match (sp.node.childForFieldName "name").orElse
          (fun _ => sp.node.childForFieldName "alias") with
      | some f => usedOutsideImports root (sliceL src f.startIndex f.endIndex)
      | none => false)
  let nsUsed :=
    match (im.preorderList.filter fun d =>
        d.type == "identifier" &&
          match d.parent with
          | some p => p.type == "namespace_import"
          | none => false).head? with
    | some d => usedOutsideImports root d.text
    | none => false
  !(defaultUsed || namedUsed || nsUsed)

/-- Concrete tree for the source `import {a,b} from 'm'; console.log(a);`
(byte offsets as tree-sitter would assign them). -/
def srcC4 : List Char := "import \x7ba,b\x7d from \x27m\x27; console.log(a);".data

def importStmtC4 : TSNode :=
  .mk "import_statement" 0 22 (TSForest.ofList
    [(none, .mk "import" 0 6 .nil),
     (none, .mk "import_clause" 7 12 (TSForest.ofList
       [(none, .mk "named_imports" 7 12 (TSForest.ofList
         [(none, .mk "\x7b" 7 8 .nil),
          (none, .mk "import_specifier" 8 9 (TSForest.ofList
            [(some "name", .mk "identifier" 8 9 .nil)])),
          (none, .mk "," 9 10 .nil),
          (none, .mk "import_specifier" 10 11 (TSForest.ofList
            [(some "name", .mk "identifier" 10 11 .nil)])),
          (none, .mk "\x7d" 11 12 .nil)]))])),
     (none, .mk "from" 13 17 .nil),
     (some "source", .mk "string" 18 21 (TSForest.ofList
       [(none, .mk "\x27" 18 19 .nil), (none, .mk "string_fragment" 19 20 .nil),
        (none, .mk "\x27" 20 21 .nil)])),
     (none, .mk ";" 21 22 .nil)])

def exprStmtC4 : TSNode :=
  .mk "expression_statement" 23 38 (TSForest.ofList
    [(none, .mk "call_expression" 23 37 (TSForest.ofList
      [(some "function", .mk "member_expression" 23 34 (TSForest.ofList
        [(some "object", .mk "identifier" 23 30 .nil),
         (none, .mk "." 30 31 .nil),
         (some "property", .mk "property_identifier" 31 34 .nil)])),
       (some "arguments", .mk "arguments" 34 37 (TSForest.ofList
         [(none, .mk "(" 34 35 .nil), (none, .mk "identifier" 35 36 .nil),
          (none, .mk ")" 36 37 .nil)]))])),
     (none, .mk ";" 37 38 .nil)])

def treeC4 : TSNode :=
  .mk "program" 0 38 (TSForest.ofList [(none, importStmtC4), (none, exprStmtC4)])

def rootC4 : TreeNode := ⟨srcC4, treeC4, []⟩

/-! Has/not complementarity (C6). -/
/-- All pseudo-argument strings of a selector are shorter than the given
bound (true of every selector the parser produces from a pattern of that
length). -/
def valuesShort (sel : Selector) (n : Nat) : Bool :=
  (selValues sel).all fun v => decide (v.length < n)

/-- Tree over the two-character source `xy`: an `x` root with a single `a`
child, used to refute C6 at the degenerate selector `S = ""`. -/
def treeC6 : TSNode := .mk "x" 0 2 (TSForest.ofList [(none, .mk "a" 0 1 .nil)])

def srcC6 : List Char := "xy".data

/-- Tree over the two-character source `xy`: an `a` root with a single `b`
child, instantiating the amended C6 at `S = "a"`, `X = "b"`. -/
def treeW6 : TSNode := .mk "a" 0 2 (TSForest.ofList [(none, .mk "b" 0 1 .nil)])

def srcW6 : List Char := "xy".data

mutual
theorem TSNode.findAllAux_eq_filter (p : TreeNode → Bool) (src : List Char) :
    ∀ (ps : List TSNode) (n : TSNode),
      TSNode.findAllAux p src ps n = List.filter p (TSNode.preorderAux src ps n)
  | ps, .mk ty s e f => by
    rw [TSNode.findAllAux, TSNode.preorderAux, List.filter,
      TSForest.forest_findAllAux_eq_filter p src (.mk ty s e f :: ps) f]
    cases p ⟨src, .mk ty s e f, ps⟩ <;> simp
theorem TSForest.forest_findAllAux_eq_filter (p : TreeNode → Bool) (src : List Char) :
    ∀ (ps : List TSNode) (f : TSForest),
      TSForest.findAllAux p src ps f = List.filter p (TSForest.preorderAux src ps f)
  | _, .nil => by simp [TSForest.findAllAux, TSForest.preorderAux]
  | ps, .cons tag h t => by
    rw [TSForest.findAllAux, TSForest.preorderAux, List.filter_append,
      TSNode.findAllAux_eq_filter p src ps h, TSForest.forest_findAllAux_eq_filter p src ps t]
end

theorem TreeNode.findAllNodes_eq_filter (c : TreeNode) (p : TreeNode → Bool) :
    c.findAllNodes p = List.filter p c.preorderList :=
  TSNode.findAllAux_eq_filter p c.sourceCode c.parents c.node

mutual
theorem TSNode.findAux_eq_head (p : TreeNode → Bool) (src : List Char) :
    ∀ (ps : List TSNode) (n : TSNode),
      TSNode.findAux p src ps n = (TSNode.findAllAux p src ps n).head?
  | ps, .mk ty s e f => by
    rw [TSNode.findAux, TSNode.findAllAux]
    cases p ⟨src, .mk ty s e f, ps⟩ with
    | true => simp
    | false => simp [TSForest.forest_findAux_eq_head p src (.mk ty s e f :: ps) f]
theorem TSForest.forest_findAux_eq_head (p : TreeNode → Bool) (src : List Char) :
    ∀ (ps : List TSNode) (f : TSForest),
      TSForest.findAux p src ps f = (TSForest.findAllAux p src ps f).head?
  | _, .nil => by simp [TSForest.findAux, TSForest.findAllAux]
  | ps, .cons tag h t => by
    rw [TSForest.findAux, TSForest.findAllAux,
      TSNode.findAux_eq_head p src ps h, TSForest.forest_findAux_eq_head p src ps t]
    cases TSNode.findAllAux p src ps h with
    | nil => simp
    | cons a l => simp
end

theorem TreeNode.findNode_eq_head (c : TreeNode) (p : TreeNode → Bool) :
    c.findNode p = (c.findAllNodes p).head? :=
  TSNode.findAux_eq_head p c.sourceCode c.parents c.node

/-- C7: `findAll` returns exactly the matching nodes of the subtree (the root
itself included) in depth-first pre-order — each node tested before its
children, children visited left to right — and `find` returns the first
element of that sequence when it is non-empty and null (`none`) when it is
empty. -/
theorem claim_C7_find_findAll_preorder (p : TreeNode → Bool) (c : TreeNode) :
    c.findAllNodes p = List.filter p c.preorderList ∧
      c.findNode p = (c.findAllNodes p).head? :=
  ⟨TreeNode.findAllNodes_eq_filter c p, TreeNode.findNode_eq_head c p⟩

/-! Congruence and fuel-stability lemmas for the compiled predicates. -/
mutual
theorem TSNode.selfOrDescAny_congr (p q : TreeNode → Bool) (h : ∀ c, p c = q c)
    (src : List Char) : ∀ (ps : List TSNode) (n : TSNode),
      TSNode.selfOrDescAny p src ps n = TSNode.selfOrDescAny q src ps n
  | ps, .mk ty s e f => by
    rw [TSNode.selfOrDescAny, TSNode.selfOrDescAny, h,
      TSForest.descAnyAux_congr p q h src (.mk ty s e f :: ps) f]
theorem TSForest.descAnyAux_congr (p q : TreeNode → Bool) (h : ∀ c, p c = q c)
    (src : List Char) : ∀ (ps : List TSNode) (f : TSForest),
      TSForest.descAnyAux p src ps f = TSForest.descAnyAux q src ps f
  | _, .nil => rfl
  | ps, .cons tag hd t => by
    rw [TSForest.descAnyAux, TSForest.descAnyAux,
      TSNode.selfOrDescAny_congr p q h src ps hd, TSForest.descAnyAux_congr p q h src ps t]
end

theorem ancestorAny_congr (p q : TreeNode → Bool) (h : ∀ c, p c = q c) (src : List Char) :
    ∀ ps : List TSNode, ancestorAny p src ps = ancestorAny q src ps
  | [] => rfl
  | a :: ps => by rw [ancestorAny, ancestorAny, h, ancestorAny_congr p q h src ps]

mutual
theorem compileWith_congr (inner1 inner2 : String → TreeNode → Bool) :
    ∀ (sel : Selector), (∀ v ∈ selValues sel, ∀ c, inner1 v c = inner2 v c) →
      ∀ c, compileWith inner1 sel c = compileWith inner2 sel c
  | .typeSel v, _, c => rfl
  | .attrSel name op value, _, c => rfl
  | .pseudo name none, _, c => by
    rw [compileWith, compileWith]
  | .pseudo name (some v), h, c => by
    have hv : ∀ d, inner1 v d = inner2 v d := h v (by simp [selValues])
    by_cases hh : name = "has"
    · subst hh
      simp only [compileWith, if_pos, TreeNode.strictDescAny]
      rw [TSForest.descAnyAux_congr (inner1 v) (inner2 v) hv]
    · by_cases hn : name = "not"
      · subst hn
        simp [compileWith, hh, hv c]
      · simp [compileWith, hh, hn]
  | .child l r, h, c => by
    have hl : ∀ d, compileWith inner1 l d = compileWith inner2 l d :=
      compileWith_congr inner1 inner2 l (fun v hv => h v (by simp [selValues, hv]))
    have hr : ∀ d, compileWith inner1 r d = compileWith inner2 r d :=
      compileWith_congr inner1 inner2 r (fun v hv => h v (by simp [selValues, hv]))
    simp only [compileWith]
    rw [hr c]
    cases c.parent with
    | none => rfl
    | some p => simp [hl p]
  | .descendant l r, h, c => by
    have hl : ∀ d, compileWith inner1 l d = compileWith inner2 l d :=
      compileWith_congr inner1 inner2 l (fun v hv => h v (by simp [selValues, hv]))
    have hr : ∀ d, compileWith inner1 r d = compileWith inner2 r d :=
      compileWith_congr inner1 inner2 r (fun v hv => h v (by simp [selValues, hv]))
    simp only [compileWith]
    rw [hr c, ancestorAny_congr _ _ hl]
  | .combination ss, h, c => by
    simp only [compileWith]
    exact compileListWith_congr inner1 inner2 ss (fun v hv => h v (by simpa [selValues] using hv)) c
theorem compileListWith_congr (inner1 inner2 : String → TreeNode → Bool) :
    ∀ (ss : SelList), (∀ v ∈ selListValues ss, ∀ c, inner1 v c = inner2 v c) →
      ∀ c, compileListWith inner1 ss c = compileListWith inner2 ss c
  | .nil, _, c => rfl
  | .cons hd t, h, c => by
    simp only [compileListWith]
    rw [compileWith_congr inner1 inner2 hd (fun v hv => h v (by simp [selListValues, hv])) c,
      compileListWith_congr inner1 inner2 t (fun v hv => h v (by simp [selListValues, hv])) c]
end

theorem parsePredN_stable :
    ∀ (f g : Nat) (pattern : String), pattern.length ≤ f → pattern.length ≤ g →
      ∀ c, parsePredN f pattern c = parsePredN g pattern c := by
  intro f
  induction f with
  | zero =>
    intro g pattern hf _ c
    obtain ⟨l⟩ := pattern
    have : l = [] := List.length_eq_zero.mp (Nat.le_zero.mp hf)
    subst this
    cases g with
    | zero => rfl
    | succ g => simp [parsePredN, PatternParser.parse, jsTrim, trimLeadingWs]
  | succ f ih =>
    intro g pattern hf hg c
    cases g with
    | zero =>
      obtain ⟨l⟩ := pattern
      have : l = [] := List.length_eq_zero.mp (Nat.le_zero.mp hg)
      subst this
      simp [parsePredN, PatternParser.parse, jsTrim, trimLeadingWs]
    | succ g =>
      show parsePredN (f + 1) pattern c = parsePredN (g + 1) pattern c
      rw [parsePredN, parsePredN]
      cases PatternParser.parse pattern with
      | error e => rfl
      | ok sel =>
        exact compileWith_congr _ _ sel
          (fun v _ d => by
            by_cases hv : v.length < pattern.length
            · simp only [hv, if_pos]
              exact ih g v (Nat.le_of_lt_succ (Nat.lt_of_lt_of_le hv hf))
                (Nat.le_of_lt_succ (Nat.lt_of_lt_of_le hv hg)) d
            · simp [hv]) c

/-- Fuel irrelevance at the public entry point. -/
theorem parsePredicate_eq_parsePredN (pattern : String) (f : Nat) (hf : pattern.length ≤ f) :
    ∀ c, PatternParser.parsePredicate pattern c = parsePredN f pattern c :=
  parsePredN_stable (pattern.length + 1) f pattern (Nat.le_succ _) hf

/-! Generic evaluation lemmas for the pattern-to-predicate pipeline. -/
theorem parsePredN_of_error (f : Nat) (pattern : String) (e : String)
    (h : PatternParser.parse pattern = .error e) (d : TreeNode) :
    parsePredN (f + 1) pattern d = false := by
  simp [parsePredN, h]

theorem parsePredicate_of_error (pattern : String) (e : String)
    (h : PatternParser.parse pattern = .error e) (d : TreeNode) :
    PatternParser.parsePredicate pattern d = false :=
  parsePredN_of_error pattern.length pattern e h d

theorem parsePredN_of_ok (f : Nat) (pattern : String) (sel : Selector)
    (h : PatternParser.parse pattern = .ok sel) (d : TreeNode) :
    parsePredN (f + 1) pattern d =
      compileWith (fun v => if v.length < pattern.length then parsePredN f v else fun _ => false)
        sel d := by
  simp [parsePredN, h]

theorem parsePredicate_of_ok (pattern : String) (sel : Selector)
    (h : PatternParser.parse pattern = .ok sel) (d : TreeNode) :
    PatternParser.parsePredicate pattern d =
      compileWith
        (fun v => if v.length < pattern.length then parsePredN pattern.length v else fun _ => false)
        sel d :=
  parsePredN_of_ok pattern.length pattern sel h d

theorem TreeNode.findAllNodes_of_false (c : TreeNode) (p : TreeNode → Bool)
    (h : ∀ d, p d = false) : c.findAllNodes p = [] := by
  rw [TreeNode.findAllNodes_eq_filter]
  exact List.filter_eq_nil_iff.mpr fun a _ => by simp [h a]

theorem TreeNode.findAllNodes_congr (c : TreeNode) (p q : TreeNode → Bool)
    (h : ∀ d, p d = q d) : c.findAllNodes p = c.findAllNodes q := by
  rw [TreeNode.findAllNodes_eq_filter, TreeNode.findAllNodes_eq_filter]
  exact List.filter_congr fun a _ => h a

/-- C2: for each of the pattern strings `"["`, `">"`, `"::invalid"` and `""`,
`findAll` returns the empty sequence on every tree: an unparseable or empty
pattern compiles to the match-nothing predicate (fail-closed), and the
compiled predicate is a total function, so no exception ever reaches the
caller. -/
theorem claim_C2_fail_closed_patterns (c : TreeNode) :
    c.findAll "[" = [] ∧ c.findAll ">" = [] ∧ c.findAll "::invalid" = [] ∧
      c.findAll "" = [] := by
  refine ⟨?_, ?_, ?_, ?_⟩
  · exact TreeNode.findAllNodes_of_false c _
      (parsePredicate_of_error "[" "unexpected character" rfl)
  · exact TreeNode.findAllNodes_of_false c _
      (parsePredicate_of_error ">" "Expected selector" rfl)
  · refine TreeNode.findAllNodes_of_false c _ (fun d => ?_)
    rw [parsePredicate_of_ok "::invalid"
      (.combination (.cons (.pseudo "" none) (.cons (.pseudo "invalid" none) .nil))) rfl d]
    simp [compileWith, compileListWith]
  · exact TreeNode.findAllNodes_of_false c _
      (parsePredicate_of_error "" "empty pattern" rfl)

/-- C9: an attribute selector named `async` matches exactly when the node's
own source text contains the substring `async`; the operator and comparison
value of the attribute block are ignored, both at the predicate level and
through `findAll "[async]"`. -/
theorem claim_C9_async_attribute :
    (∀ (op : String) (v : Option String) (inner : String → TreeNode → Bool) (c : TreeNode),
      compileWith inner (.attrSel "async" op v) c = listIncludes c.text "async".data) ∧
      ∀ (root : TreeNode),
        root.findAll "[async]" =
          root.findAllNodes fun d => listIncludes d.text "async".data := by
  constructor
  · intro op v inner c
    simp [compileWith, compileAttributePredicate]
  · intro root
    rw [TreeNode.findAll]
    refine TreeNode.findAllNodes_congr root _ _ fun d => ?_
    rw [parsePredicate_of_ok "[async]" (.attrSel "async" "=" none) rfl d]
    simp [compileWith, compileAttributePredicate]

theorem matchValue_star (a : List Char) (e : String) (he : e.data ≠ []) :
    matchValue a "*=" (some e) = listIncludes a e.data := by
  cases a with
  | nil => simp [matchValue, he, listIncludes, List.infix_nil]
  | cons c r => simp [matchValue, he, listIncludes]

/-- C10: in `remove`, the dot rule takes precedence over the parentheses
rule: every dot-containing pattern without `[` or space is coerced verbatim
to `call_expression[text*="<pattern>"]`; in particular `remove("foo.bar()")`
compiles to a predicate that holds exactly on call-expression nodes whose
text contains the literal substring `foo.bar()`, so a call written
`foo.bar(x)` is not matched. -/
theorem claim_C10_remove_dot_rule :
    (∀ pattern : String, pattern.data.contains '.' = true →
      pattern.data.contains '[' = false → pattern.data.contains ' ' = false →
      removeActualPattern pattern = "call_expression[text*=\"" ++ pattern ++ "\"]") ∧
    (∀ c : TreeNode,
      PatternParser.parsePredicate (removeActualPattern "foo.bar()") c =
        (c.type == "call_expression" && listIncludes c.text "foo.bar()".data)) ∧
    (∀ c : TreeNode, c.text = "foo.bar(x)".data →
      PatternParser.parsePredicate (removeActualPattern "foo.bar()") c = false) := by
  have key : ∀ c : TreeNode,
      PatternParser.parsePredicate (removeActualPattern "foo.bar()") c =
        (c.type == "call_expression" && listIncludes c.text "foo.bar()".data) := by
    intro c
    have hq : removeActualPattern "foo.bar()" = "call_expression[text*=\"foo.bar()\"]" := rfl
    rw [hq, parsePredicate_of_ok "call_expression[text*=\"foo.bar()\"]"
      (.combination (.cons (.typeSel "call_expression")
        (.cons (.attrSel "text" "*=" (some "foo.bar()")) .nil))) rfl c]
    have ha : aliasLookup "call_expression" = none := rfl
    have hattr : ∀ d : TreeNode, compileAttributePredicate "text" "*=" (some "foo.bar()") d =
        listIncludes d.text "foo.bar()".data := by
      intro d
      have : compileAttributePredicate "text" "*=" (some "foo.bar()") d =
          matchValue d.text "*=" (some "foo.bar()") := by
        simp [compileAttributePredicate]
      rw [this, matchValue_star d.text "foo.bar()" (by decide)]
    simp [compileWith, compileListWith, ha, hattr]
  refine ⟨?_, key, ?_⟩
  · intro pattern h1 h2 h3
    unfold removeActualPattern
    rw [h1, h2, h3]
    rfl
  · intro c hc
    rw [key c, hc]
    have : listIncludes "foo.bar(x)".data "foo.bar()".data = false := by decide
    rw [this, Bool.and_false]

/-- Witness for C10: the dot rule applied to `a.b`, and the compiled
`remove("foo.bar()")` predicate rejecting a concrete node spelled
`foo.bar(x)`. -/
theorem claim_C10_remove_dot_rule_witness :
    removeActualPattern "a.b" = "call_expression[text*=\"a.b\"]" ∧
      PatternParser.parsePredicate (removeActualPattern "foo.bar()") nodeW10 = false :=
  ⟨claim_C10_remove_dot_rule.1 "a.b" (by decide) (by decide) (by decide),
   claim_C10_remove_dot_rule.2.2 nodeW10 (by decide)⟩

/-! Render validation: overlap detection (C1) and edit-order independence
(C3). -/
theorem adjacentViolation_cons_none {a : Edit} {l : List Edit}
    (h : adjacentViolation (a :: l) = none) : adjacentViolation l = none := by
  cases l with
  | nil => rfl
  | cons b r =>
    rw [adjacentViolation] at h
    by_cases hc : a.stop > b.start
    · simp [hc] at h
    · simpa [hc] using h

theorem adjacentViolation_cons_le {a b : Edit} {l : List Edit}
    (h : adjacentViolation (a :: b :: l) = none) : a.stop ≤ b.start := by
  rw [adjacentViolation] at h
  by_cases hc : a.stop > b.start
  · simp [hc] at h
  · exact Nat.le_of_not_lt hc

/-- Chain step: with no adjacent violation, a sorted head's stop offset is
below the start of every later edit. -/
theorem chain_head_le (l : List Edit) (a : Edit) (hs : List.Sorted editLeAsc (a :: l))
    (hv : adjacentViolation (a :: l) = none) : ∀ y ∈ l, a.stop ≤ y.start := by
  cases l with
  | nil => intro y hy; cases hy
  | cons b r =>
    intro y hy
    have hab : a.stop ≤ b.start := adjacentViolation_cons_le hv
    cases hy with
    | head => exact hab
    | tail _ hyr =>
      have hby : editLeAsc b y := List.rel_of_sorted_cons hs.of_cons y hyr
      exact Nat.le_trans hab hby

/-- With no adjacent violation on a start-sorted list, every ordered pair
occurring as a sublist is non-overlapping — the adjacent check subsumes all
pairs, not just adjacent ones. -/
theorem sorted_chain_pair : ∀ (l : List Edit), List.Sorted editLeAsc l →
    adjacentViolation l = none → ∀ x y : Edit, List.Sublist [x, y] l → x.stop ≤ y.start := by
  intro l
  induction l with
  | nil => intro _ _ x y hsub; simp at hsub
  | cons a t ih =>
    intro hs hv x y hsub
    cases hsub with
    | cons _ h => exact ih hs.of_cons (adjacentViolation_cons_none hv) x y h
    | cons₂ _ h =>
      exact chain_head_le t a hs hv y (List.singleton_sublist.mp h)

theorem pair_sublist_of_getElem? : ∀ (l : List Edit) (i j : Nat) (a b : Edit), i < j →
    l[i]? = some a → l[j]? = some b → List.Sublist [a, b] l := by
  intro l
  induction l with
  | nil => intro i j a b _ ha _; simp at ha
  | cons x t ih =>
    intro i j a b hij ha hb
    cases i with
    | zero =>
      simp at ha
      subst ha
      cases j with
      | zero => exact absurd hij (by simp)
      | succ j =>
        rw [List.getElem?_cons_succ] at hb
        have hbmem : b ∈ t := by
          obtain ⟨h, rfl⟩ := List.getElem?_eq_some.mp hb
          exact List.getElem_mem h
        exact (List.singleton_sublist.mpr hbmem).cons₂ x
    | succ i =>
      cases j with
      | zero => exact absurd hij (by simp)
      | succ j =>
        rw [List.getElem?_cons_succ] at ha
        rw [List.getElem?_cons_succ] at hb
        exact (ih i j a b (Nat.lt_of_succ_lt_succ hij) ha hb).cons x

theorem perm_pair_cases (u : List Edit) (a b : Edit) (h : List.Perm u [a, b]) :
    u = [a, b] ∨ u = [b, a] := by
  cases u with
  | nil => simpa using h.length_eq
  | cons x t =>
    cases t with
    | nil => simpa using h.length_eq
    | cons y t2 =>
      cases t2 with
      | nil =>
        have hx : x ∈ [a, b] := h.subset (List.mem_cons_self x [y])
        rcases List.mem_pair.mp hx with hxa | hxb
        · subst hxa
          left
          have : List.Perm [y] [b] := h.cons_inv
          rw [List.perm_singleton.mp this]
        · subst hxb
          right
          have hswap : List.Perm [x, y] [x, a] := h.trans (List.Perm.swap x a [])
          rw [List.perm_singleton.mp hswap.cons_inv]
      | cons z t3 => simpa using h.length_eq

theorem applyEditsLoop_no_overlap : ∀ (l : List Edit) (srcLen : Nat) (acc : List Char)
    (c n : Edit), applyEditsLoop srcLen l acc ≠ .error (.overlap c n) := by
  intro l
  induction l with
  | nil => intro _ _ _ _ h; simp [applyEditsLoop] at h
  | cons e rest ih =>
    intro srcLen acc c n h
    rw [applyEditsLoop] at h
    by_cases hb : e.stop > srcLen
    · simp [hb] at h
    · rw [if_neg hb] at h
      exact ih srcLen _ c n h

theorem adjacentViolation_some : ∀ (l : List Edit) (c n : Edit),
    adjacentViolation l = some (c, n) → c.stop > n.start ∧ [c, n] <:+: l := by
  intro l
  induction l with
  | nil => intro c n h; simp [adjacentViolation] at h
  | cons a t ih =>
    intro c n h
    cases t with
    | nil => simp [adjacentViolation] at h
    | cons b rest =>
      rw [adjacentViolation] at h
      by_cases hc : a.stop > b.start
      · rw [if_pos hc] at h
        obtain ⟨rfl, rfl⟩ : a = c ∧ b = n := by simpa using h
        exact ⟨hc, [], rest, by simp⟩
      · rw [if_neg hc] at h
        obtain ⟨h1, h2⟩ := ih c n h
        obtain ⟨s, t, heq⟩ := h2
        exact ⟨h1, a :: s, t, by rw [← heq]; rfl⟩

/-- C1 (amended): render raises an overlap error exactly when the
start-sorted (stable) edit list has an adjacent pair with
`current.end > next.start`; the error carries that adjacent pair, which
genuinely violates the bound; and any two distinct queued edits whose byte
ranges truly intersect always trigger the error (the adjacent check detects
non-adjacent pairs as well), with no output string produced.  The converse
direction of the original claim — that a raise implies two genuinely
intersecting ranges — is false for zero-width edits (see the
counterexample). -/
theorem claim_C1_overlap_validation (edits : List Edit) (src : List Char) :
    ((∃ c n, Transform.toString edits src = .error (.overlap c n)) ↔ validateEdits edits ≠ none) ∧
      (∀ c n, Transform.toString edits src = .error (.overlap c n) →
        validateEdits edits = some (c, n) ∧ c.stop > n.start ∧
          [c, n] <:+: sortByStartAsc edits) ∧
      (∀ (i j : Nat) (a b : Edit), edits[i]? = some a → edits[j]? = some b → i ≠ j →
        rangesIntersect a b → validateEdits edits ≠ none) := by
  have hsome : ∀ (c n : Edit), validateEdits edits = some (c, n) →
      Transform.toString edits src = .error (.overlap c n) := by
    intro c n h
    simp [Transform.toString, h]
  have hnoneEq : validateEdits edits = none →
      Transform.toString edits src = applyEditsLoop src.length (sortByStartDesc edits) src := by
    intro h
    simp [Transform.toString, h]
  refine ⟨⟨?_, ?_⟩, ?_, ?_⟩
  · rintro ⟨c, n, h⟩ hnone
    rw [hnoneEq hnone] at h
    exact applyEditsLoop_no_overlap _ _ _ c n h
  · intro hne
    cases hv : validateEdits edits with
    | none => exact absurd hv hne
    | some p =>
      obtain ⟨c, n⟩ := p
      exact ⟨c, n, hsome c n hv⟩
  · intro c n h
    cases hv : validateEdits edits with
    | none =>
      rw [hnoneEq hv] at h
      exact absurd h (applyEditsLoop_no_overlap _ _ _ c n)
    | some p =>
      obtain ⟨c', n'⟩ := p
      rw [hsome c' n' hv] at h
      have hcn : c' = c ∧ n' = n := by simpa using h
      rw [hcn.1, hcn.2] at hv
      obtain ⟨h1, h2⟩ := adjacentViolation_some _ c n hv
      exact ⟨by rw [hcn.1, hcn.2], h1, h2⟩
  · intro i j a b ha hb hij hint hnone
    rw [validateEdits] at hnone
    have hsorted : List.Sorted editLeAsc (sortByStartAsc edits) :=
      List.sorted_insertionSort editLeAsc edits
    have hperm : List.Subperm edits (sortByStartAsc edits) :=
      (List.perm_insertionSort editLeAsc edits).symm.subperm
    have hpair : List.Sublist [a, b] edits ∨ List.Sublist [b, a] edits := by
      rcases Nat.lt_or_ge i j with hlt | hge
      · exact Or.inl (pair_sublist_of_getElem? edits i j a b hlt ha hb)
      · have hlt : j < i := Nat.lt_of_le_of_ne hge (fun hji => hij hji.symm)
        exact Or.inr (pair_sublist_of_getElem? edits j i b a hlt hb ha)
    have hstarts : b.start < a.stop ∧ a.start < b.stop := by
      rw [rangesIntersect] at hint
      exact ⟨Nat.lt_of_le_of_lt (Nat.le_max_right _ _)
          (Nat.lt_of_lt_of_le hint (Nat.min_le_left _ _)),
        Nat.lt_of_le_of_lt (Nat.le_max_left _ _)
          (Nat.lt_of_lt_of_le hint (Nat.min_le_right _ _))⟩
    have hsubperm : List.Subperm [a, b] (sortByStartAsc edits) := by
      rcases hpair with hs | hs
      · exact hs.subperm.trans hperm
      · exact ((List.Perm.swap b a []).subperm).trans (hs.subperm.trans hperm)
    obtain ⟨u, hu, husub⟩ := hsubperm
    rcases perm_pair_cases u a b hu with rfl | rfl
    · exact Nat.not_lt.mpr (sorted_chain_pair _ hsorted hnone a b husub) hstarts.1
    · exact Nat.not_lt.mpr (sorted_chain_pair _ hsorted hnone b a husub) hstarts.2

/-- Counterexample to C1 as stated: over a 20-character source, the queued
edit list `[0,5)→"x"`, `[0,0)→"y"` makes render raise an overlap error, yet
the two edits' byte ranges do not intersect — `[0,0)` is empty.  The
"raises iff some two ranges intersect" equivalence is therefore false. -/
theorem claim_C1_counterexample :
    Transform.toString [⟨0, 5, "x".data⟩, ⟨0, 0, "y".data⟩] "01234567890123456789".data =
        .error (.overlap ⟨0, 5, "x".data⟩ ⟨0, 0, "y".data⟩) ∧
      ¬ rangesIntersect ⟨0, 5, "x".data⟩ ⟨0, 0, "y".data⟩ := by
  exact ⟨rfl, by decide⟩

/-- Witness for C1: two genuinely intersecting edits make validation fail. -/
theorem claim_C1_overlap_validation_witness :
    validateEdits [⟨0, 5, "x".data⟩, ⟨3, 7, "y".data⟩] ≠ none :=
  (claim_C1_overlap_validation [⟨0, 5, "x".data⟩, ⟨3, 7, "y".data⟩] "0123456789".data).2.2
    0 1 ⟨0, 5, "x".data⟩ ⟨3, 7, "y".data⟩ rfl rfl (by decide) (by decide)

/-- Two sorted lists that are permutations of each other and whose start
offsets are pairwise distinct are equal. -/
theorem sorted_perm_eq_of_distinct_starts (r : Edit → Edit → Prop)
    (hanti : ∀ a b : Edit, r a b → r b a → a.start = b.start) :
    ∀ (l1 l2 : List Edit), List.Perm l1 l2 → l1.Sorted r → l2.Sorted r →
      l1.Pairwise (fun a b => a.start ≠ b.start) → l1 = l2 := by
  intro l1
  induction l1 with
  | nil =>
    intro l2 hperm _ _ _
    exact (hperm.symm.eq_nil).symm
  | cons a t1 ih =>
    intro l2 hperm hs1 hs2 hpw
    cases l2 with
    | nil => simpa using hperm.length_eq
    | cons b t2 =>
      by_cases hab : a = b
      · subst hab
        rw [ih t2 hperm.cons_inv hs1.of_cons hs2.of_cons hpw.of_cons]
      · exfalso
        have hbmem : b ∈ t1 := by
          have hb : b ∈ a :: t1 := hperm.symm.subset (List.mem_cons_self b t2)
          cases hb with
          | head => exact absurd rfl hab
          | tail _ h => exact h
        have hamem : a ∈ t2 := by
          have ha : a ∈ b :: t2 := hperm.subset (List.mem_cons_self a t1)
          cases ha with
          | head => exact absurd rfl hab
          | tail _ h => exact h
        have hr1 : r a b := List.rel_of_sorted_cons hs1 b hbmem
        have hr2 : r b a := List.rel_of_sorted_cons hs2 a hamem
        exact (List.pairwise_cons.mp hpw).1 b hbmem (hanti a b hr1 hr2)

theorem sortByStartAsc_eq_of_perm (l1 l2 : List Edit) (hperm : List.Perm l1 l2)
    (hdist : l1.Pairwise fun a b => a.start ≠ b.start) :
    sortByStartAsc l1 = sortByStartAsc l2 := by
  refine sorted_perm_eq_of_distinct_starts editLeAsc
    (fun a b h1 h2 => Nat.le_antisymm h1 h2) _ _ ?_
    (List.sorted_insertionSort editLeAsc l1) (List.sorted_insertionSort editLeAsc l2) ?_
  · exact ((List.perm_insertionSort editLeAsc l1).trans hperm).trans
      (List.perm_insertionSort editLeAsc l2).symm
  · exact ((List.perm_insertionSort editLeAsc l1).pairwise_iff (fun h => Ne.symm h)).mpr hdist

theorem sortByStartDesc_eq_of_perm (l1 l2 : List Edit) (hperm : List.Perm l1 l2)
    (hdist : l1.Pairwise fun a b => a.start ≠ b.start) :
    sortByStartDesc l1 = sortByStartDesc l2 := by
  refine sorted_perm_eq_of_distinct_starts editLeDesc
    (fun a b h1 h2 => Nat.le_antisymm h2 h1) _ _ ?_
    (List.sorted_insertionSort editLeDesc l1) (List.sorted_insertionSort editLeDesc l2) ?_
  · exact ((List.perm_insertionSort editLeDesc l1).trans hperm).trans
      (List.perm_insertionSort editLeDesc l2).symm
  · exact ((List.perm_insertionSort editLeDesc l1).pairwise_iff (fun h => Ne.symm h)).mpr hdist

/-- C3 (amended): two sessions holding the same edits in different orders
render to the same string, provided no two of the edits share a start
offset; with distinct start offsets both the validation sort and the
descending application sort produce the same list for every accumulation
order. -/
theorem claim_C3_render_order_independent (l1 l2 : List Edit) (src : List Char)
    (hperm : List.Perm l1 l2)
    (hdist : l1.Pairwise fun a b => a.start ≠ b.start) :
    Transform.toString l1 src = Transform.toString l2 src := by
  have hasc := sortByStartAsc_eq_of_perm l1 l2 hperm hdist
  have hdesc := sortByStartDesc_eq_of_perm l1 l2 hperm hdist
  simp [Transform.toString, validateEdits, hasc, hdesc]

/-- Counterexample to C3 as stated: two zero-width inserts at the same
offset are the same multiset in either accumulation order, both orders pass
validation, yet render returns different strings ("BA…" versus "AB…"). -/
theorem claim_C3_counterexample :
    List.Perm [(⟨0, 0, "A".data⟩ : Edit), ⟨0, 0, "B".data⟩]
        [(⟨0, 0, "B".data⟩ : Edit), ⟨0, 0, "A".data⟩] ∧
      Transform.toString [⟨0, 0, "A".data⟩, ⟨0, 0, "B".data⟩] "0123456789".data =
        .ok "BA0123456789".data ∧
      Transform.toString [⟨0, 0, "B".data⟩, ⟨0, 0, "A".data⟩] "0123456789".data =
        .ok "AB0123456789".data ∧
      ("BA0123456789".data : List Char) ≠ "AB0123456789".data := by
  exact ⟨List.Perm.swap _ _ _, rfl, rfl, by decide⟩

/-- Witness for C3: the spec's own example — inserts at offsets 0 and 10
added in either order render identically. -/
theorem claim_C3_render_order_independent_witness :
    Transform.toString [⟨0, 0, "A".data⟩, ⟨10, 10, "B".data⟩] "0123456789".data =
      Transform.toString [⟨10, 10, "B".data⟩, ⟨0, 0, "A".data⟩] "0123456789".data :=
  claim_C3_render_order_independent _ _ _ (List.Perm.swap _ _ _) (by decide)

/-! `replaceIn` (C5): selection, change detection, and the single-occurrence
semantics of JS string replacement. -/
theorem expandRepl_no_dollar (m b a : List Char) :
    ∀ (l : List Char), (∀ ch ∈ l, ch ≠ '$') → expandRepl m b a l = l := by
  intro l
  induction l with
  | nil => intro _; rfl
  | cons c r ih =>
    intro h
    have hc : c ≠ '$' := h c (by simp)
    cases r with
    | nil => simp [expandRepl, hc]
    | cons c2 r2 =>
      have hr := ih fun ch hch => h ch (List.mem_cons_of_mem c hch)
      simp [expandRepl, hc, hr]

theorem firstIndexOf_append_self (patL rest : List Char) (h : patL ≠ []) :
    firstIndexOf (patL ++ rest) patL = some 0 := by
  cases patL with
  | nil => exact absurd rfl h
  | cons pc pr =>
    have hs : listStarts ((pc :: pr) ++ rest) (pc :: pr) = true := by
      simp [listStarts, List.prefix_append]
    rw [firstIndexOf, show ((pc :: pr) ++ rest) = pc :: (pr ++ rest) from rfl,
      firstIndexOfFrom]
    rw [show (pc :: (pr ++ rest)) = ((pc :: pr) ++ rest) from rfl, hs]
    simp

theorem replaceInGo_eq_filterMap (pat repl : String) :
    ∀ (l : List TreeNode) (edits : List Edit),
      Transform.replaceInGo pat repl l edits =
        edits ++ l.filterMap fun node =>
          let newText := jsReplaceFirst node.text pat.data repl.data
          if newText ≠ node.text then
            some ⟨node.node.startIndex, node.node.endIndex, newText⟩
          else none := by
  intro l
  induction l with
  | nil => intro edits; simp [Transform.replaceInGo]
  | cons node rest ih =>
    intro edits
    rw [Transform.replaceInGo]
    by_cases hc : jsReplaceFirst node.text pat.data repl.data ≠ node.text
    · rw [if_pos hc, ih, List.filterMap_cons]
      simp [hc]
    · rw [if_neg hc, ih, List.filterMap_cons]
      simp [hc]

/-- C5 (amended): `replaceIn` selects all alias-resolved `nodeType` nodes and
appends one full-range edit exactly for those whose text changes, where the
new text is computed by JS string replacement — which, for a string pattern,
replaces only the FIRST occurrence, not all of them: any occurrence in the
rest of the node text survives (second conjunct; `$`-free replacement
strings). -/
theorem claim_C5_replaceIn_first_occurrence (root : TreeNode)
    (nodeType pat repl : String) (edits : List Edit) :
    (Transform.replaceIn root nodeType pat repl edits =
      edits ++ (root.findAll nodeType).filterMap fun node =>
        let newText := jsReplaceFirst node.text pat.data repl.data
        if newText ≠ node.text then
          some ⟨node.node.startIndex, node.node.endIndex, newText⟩
        else none) ∧
      ∀ (patL mid replL : List Char), patL ≠ [] → (∀ ch ∈ replL, ch ≠ '$') →
        jsReplaceFirst (patL ++ mid ++ patL) patL replL = replL ++ mid ++ patL := by
  constructor
  · exact replaceInGo_eq_filterMap pat repl (root.findAll nodeType) edits
  · intro patL mid replL hpat hrepl
    have h0 : firstIndexOf (patL ++ mid ++ patL) patL = some 0 := by
      rw [List.append_assoc]
      exact firstIndexOf_append_self patL (mid ++ patL) hpat
    rw [jsReplaceFirst, h0]
    simp [expandRepl_no_dollar _ _ _ replL hrepl, List.append_assoc, List.drop_left]

/-- Counterexample to C5 as stated: on `foo(foo)`,
`replaceIn("call_expression", "foo", "bar")` queues the edit text
`bar(foo)` — only the first occurrence is replaced — not the global
replacement `bar(bar)` the claim asserts. -/
theorem claim_C5_counterexample :
    Transform.replaceIn rootC5 "call_expression" "foo" "bar" [] =
        [⟨0, 8, "bar(foo)".data⟩] ∧
      ("bar(foo)".data : List Char) ≠ "bar(bar)".data := by
  exact ⟨by decide, by decide⟩

/-- Witness for C5: the single-occurrence property at a concrete input, and
the filterMap characterization on the concrete `foo(foo)` tree. -/
theorem claim_C5_replaceIn_first_occurrence_witness :
    jsReplaceFirst ("ab".data ++ "cd".data ++ "ab".data) "ab".data "XY".data =
      "XY".data ++ "cd".data ++ "ab".data :=
  (claim_C5_replaceIn_first_occurrence rootC5 "call_expression" "foo" "bar" []).2
    "ab".data "cd".data "XY".data (by decide) (by decide)

/-! Insert operations (C8): keyword widening across the two versions. -/
theorem insertAfterGoV2_eq (text : String) :
    ∀ (l : List TreeNode) (edits : List Edit),
      Transform.insertAfterGoV2 text l edits =
        edits ++ l.map fun node =>
          ⟨(widenTarget node).node.endIndex, (widenTarget node).node.endIndex, text.data⟩ := by
  intro l
  induction l with
  | nil => intro edits; simp [Transform.insertAfterGoV2]
  | cons node rest ih =>
    intro edits
    rw [Transform.insertAfterGoV2, ih]
    simp

theorem insertBeforeGoV2_eq (text : String) :
    ∀ (l : List TreeNode) (edits : List Edit),
      Transform.insertBeforeGoV2 text l edits =
        edits ++ l.map fun node =>
          ⟨node.node.startIndex, node.node.startIndex, text.data⟩ := by
  intro l
  induction l with
  | nil => intro edits; simp [Transform.insertBeforeGoV2]
  | cons node rest ih =>
    intro edits
    rw [Transform.insertBeforeGoV2, ih]
    simp

theorem insertBeforeGo_offsets (src : List Char) (text : String) :
    ∀ (l : List TreeNode) (edits : List Edit),
      (Transform.insertBeforeGo src text l edits).map (fun e => (e.start, e.stop)) =
        edits.map (fun e => (e.start, e.stop)) ++ l.map fun node =>
          ((widenTarget node).node.startIndex, (widenTarget node).node.startIndex) := by
  intro l
  induction l with
  | nil => intro edits; simp [Transform.insertBeforeGo]
  | cons node rest ih =>
    intro edits
    rw [Transform.insertBeforeGo, ih, List.map_append]
    simp

theorem insertAfterGo_offsets (src : List Char) (text : String) :
    ∀ (l : List TreeNode) (edits : List Edit),
      (Transform.insertAfterGo src text l edits).map (fun e => (e.start, e.stop)) =
        edits.map (fun e => (e.start, e.stop)) ++ l.map fun node =>
          ((widenTarget node).node.endIndex, (widenTarget node).node.endIndex) := by
  intro l
  induction l with
  | nil => intro edits; simp [Transform.insertAfterGo]
  | cons node rest ih =>
    intro edits
    rw [Transform.insertAfterGo, ih, List.map_append]
    simp

/-- C8 (corrected): `insertAfter` (both versions) and the first version of
`insertBefore` widen keyword-typed matches (`const`, `let`, `var`, `return`,
`if`, `for`, `while`) to the nearest strict statement-like ancestor, placing
the zero-width edit at that ancestor's start or end; the second version of
`insertBefore`, however, performs no widening and always inserts at the
matched node's own start offset. -/
theorem claim_C8_insert_keyword_widening (root : TreeNode) (src : List Char)
    (pattern text : String) (edits : List Edit) :
    (Transform.insertAfterV2 root pattern text edits =
      edits ++ (root.findAll pattern).map fun node =>
        ⟨(widenTarget node).node.endIndex, (widenTarget node).node.endIndex, text.data⟩) ∧
      ((Transform.insertBefore root src pattern text edits).map (fun e => (e.start, e.stop)) =
        edits.map (fun e => (e.start, e.stop)) ++ (root.findAll pattern).map fun node =>
          ((widenTarget node).node.startIndex, (widenTarget node).node.startIndex)) ∧
      ((Transform.insertAfter root src pattern text edits).map (fun e => (e.start, e.stop)) =
        edits.map (fun e => (e.start, e.stop)) ++ (root.findAll pattern).map fun node =>
          ((widenTarget node).node.endIndex, (widenTarget node).node.endIndex)) ∧
      (Transform.insertBeforeV2 root pattern text edits =
        edits ++ (root.findAll pattern).map fun node =>
          ⟨node.node.startIndex, node.node.startIndex, text.data⟩) ∧
      (∀ node : TreeNode, keywordTypes.contains node.type = true →
        widenTarget node = (findStatementAncestor node.sourceCode node.parents).getD node) ∧
      (∀ node : TreeNode, keywordTypes.contains node.type = false → widenTarget node = node) := by
  refine ⟨insertAfterGoV2_eq text _ edits, insertBeforeGo_offsets src text _ edits,
    insertAfterGo_offsets src text _ edits, insertBeforeGoV2_eq text _ edits, ?_, ?_⟩
  · intro node h
    rw [widenTarget, if_pos h]
    cases findStatementAncestor node.sourceCode node.parents <;> rfl
  · intro node h
    rw [widenTarget, h]
    simp

/-- Counterexample to C8 as stated: `[text=while]` matches exactly the
`while` keyword at offset 21; its widened statement-like ancestor starts at
offset 0, but the second version of `insertBefore` places the edit at the
keyword's own offset 21, not at the ancestor's start. -/
theorem claim_C8_counterexample :
    (Transform.insertBeforeV2 rootC8 "[text=while]" "X" []).map (fun e => e.start) = [21] ∧
      (rootC8.findAll "[text=while]").map (fun n => (widenTarget n).node.startIndex) = [0] ∧
      (21 : Nat) ≠ 0 := by
  exact ⟨by decide, by decide, by decide⟩

/-- Witness for C8: the keyword-widening characterization evaluated at the
concrete `while` keyword node. -/
theorem claim_C8_insert_keyword_widening_witness :
    widenTarget whileKwC8 =
      (findStatementAncestor whileKwC8.sourceCode whileKwC8.parents).getD whileKwC8 :=
  (claim_C8_insert_keyword_widening rootC8 srcC8 "[text=while]" "X" []).2.2.2.2.1
    whileKwC8 (by decide)

/-! `removeUnusedImports` (C4): the code's set-based check against a
specification-side formulation. -/
theorem list_any_congr {α : Type} (l : List α) (p q : α → Bool)
    (h : ∀ d ∈ l, p d = q d) : l.any p = l.any q := by
  induction l with
  | nil => rfl
  | cons d r ih =>
    simp only [List.any_cons, h d (List.mem_cons_self d r)]
    rw [ih fun x hx => h x (List.mem_cons_of_mem d hx)]

theorem listCharBeq_comm (a b : List Char) : (a == b) = (b == a) := by
  by_cases h : a = b
  · subst h; rfl
  · rw [beq_eq_false_iff_ne.mpr h, beq_eq_false_iff_ne.mpr (Ne.symm h)]

theorem contains_map_text_filter (l : List TreeNode) (p : TreeNode → Bool) (t : List Char) :
    ((l.filter p).map TreeNode.text).contains t = l.any fun d => p d && d.text == t := by
  induction l with
  | nil => rfl
  | cons d r ih =>
    by_cases hp : p d
    · simp only [List.filter_cons, hp, if_pos, List.map_cons, List.contains_cons,
        List.any_cons, ih]
      rw [listCharBeq_comm t d.text]
      simp [hp]
    · have hf : p d = false := by rwa [Bool.not_eq_true] at hp
      simp only [List.filter_cons, hf, Bool.false_eq_true, if_false, List.any_cons,
        Bool.false_and, Bool.false_or]
      exact ih

/-- Parsed form of a bare non-alias type pattern: plain type equality. -/
theorem parsePredicate_identifier (d : TreeNode) :
    PatternParser.parsePredicate "identifier" d = (d.type == "identifier") := by
  rw [parsePredicate_of_ok "identifier" (.typeSel "identifier") rfl d]
  have h : aliasLookup "identifier" = none := rfl
  simp [compileWith, h]

theorem parsePredicate_import_statement (d : TreeNode) :
    PatternParser.parsePredicate "import_statement" d = (d.type == "import_statement") := by
  rw [parsePredicate_of_ok "import_statement" (.typeSel "import_statement") rfl d]
  have h : aliasLookup "import_statement" = none := rfl
  simp [compileWith, h]

theorem parsePredicate_import_specifier (d : TreeNode) :
    PatternParser.parsePredicate "import_specifier" d = (d.type == "import_specifier") := by
  rw [parsePredicate_of_ok "import_specifier" (.typeSel "import_specifier") rfl d]
  have h : aliasLookup "import_specifier" = none := rfl
  simp [compileWith, h]

theorem parsePredicate_import_clause_child (d : TreeNode) :
    PatternParser.parsePredicate "import_clause > identifier" d =
      (d.type == "identifier" &&
        match d.parent with
        | some p => p.type == "import_clause"
        | none => false) := by
  rw [parsePredicate_of_ok "import_clause > identifier"
    (.child (.typeSel "import_clause") (.typeSel "identifier")) rfl d]
  have h1 : aliasLookup "identifier" = none := rfl
  have h2 : aliasLookup "import_clause" = none := rfl
  simp only [compileWith, h1, h2]
  cases d.parent with
  | none => rfl
  | some p => rfl

theorem parsePredicate_namespace_import_child (d : TreeNode) :
    PatternParser.parsePredicate "namespace_import > identifier" d =
      (d.type == "identifier" &&
        match d.parent with
        | some p => p.type == "namespace_import"
        | none => false) := by
  rw [parsePredicate_of_ok "namespace_import > identifier"
    (.child (.typeSel "namespace_import") (.typeSel "identifier")) rfl d]
  have h1 : aliasLookup "identifier" = none := rfl
  have h2 : aliasLookup "namespace_import" = none := rfl
  simp only [compileWith, h1, h2]
  cases d.parent with
  | none => rfl
  | some p => rfl

theorem usedIdentifiers_contains (root : TreeNode) (t : List Char) :
    (Transform.usedIdentifiers root).contains t = usedOutsideImports root t := by
  rw [Transform.usedIdentifiers, TreeNode.findAll, TreeNode.findAllNodes_eq_filter,
    List.filter_filter, contains_map_text_filter, usedOutsideImports]
  refine list_any_congr _ _ _ fun d _ => ?_
  rw [parsePredicate_identifier d]

theorem importHasUsed_eq_not_spec (root : TreeNode) (src : List Char) (im : TreeNode) :
    Transform.importHasUsed (Transform.usedIdentifiers root) src im =
      !(importUnusedSpec root src im) := by
  rw [Transform.importHasUsed, importUnusedSpec]
  simp only [Bool.not_not]
  have hdef : im.find "import_clause > identifier" =
      (im.preorderList.filter fun d =>
        d.type == "identifier" &&
          match d.parent with
          | some p => p.type == "import_clause"
          | none => false).head? := by
    rw [TreeNode.find, TreeNode.findNode_eq_head, TreeNode.findAllNodes_eq_filter]
    congr 1
    exact List.filter_congr fun d _ => parsePredicate_import_clause_child d
  have hns : im.find "namespace_import > identifier" =
      (im.preorderList.filter fun d =>
        d.type == "identifier" &&
          match d.parent with
          | some p => p.type == "namespace_import"
          | none => false).head? := by
    rw [TreeNode.find, TreeNode.findNode_eq_head, TreeNode.findAllNodes_eq_filter]
    congr 1
    exact List.filter_congr fun d _ => parsePredicate_namespace_import_child d
  have hspec : im.findAll "import_specifier" =
      im.preorderList.filter fun d => d.type == "import_specifier" := by
    rw [TreeNode.findAll, TreeNode.findAllNodes_eq_filter]
    exact List.filter_congr fun d _ => parsePredicate_import_specifier d
  rw [hdef, hns, hspec]
  congr 1
  · congr 1
    · cases (im.preorderList.filter fun d =>
          d.type == "identifier" &&
            match d.parent with
            | some p => p.type == "import_clause"
            | none => false).head? with
      | none => rfl
      | some d => exact usedIdentifiers_contains root d.text
    · refine list_any_congr _ _ _ fun sp _ => ?_
      cases (sp.node.childForFieldName "name").orElse
          (fun _ => sp.node.childForFieldName "alias") with
      | none => rfl
      | some f => exact usedIdentifiers_contains root (sliceL src f.startIndex f.endIndex)
  · cases (im.preorderList.filter fun d =>
        d.type == "identifier" &&
          match d.parent with
          | some p => p.type == "namespace_import"
          | none => false).head? with
    | none => rfl
    | some d => exact usedIdentifiers_contains root d.text

theorem removeUnusedImportsGo_eq (A : List (List Char)) (src : List Char) :
    ∀ (l : List TreeNode) (edits : List Edit),
      Transform.removeUnusedImportsGo A src l edits =
        edits ++ (l.filter fun im => !(Transform.importHasUsed A src im)).map fun im =>
          ⟨im.node.startIndex,
           if peekAt src im.node.endIndex = some '\n' then im.node.endIndex + 1
           else im.node.endIndex, []⟩ := by
  intro l
  induction l with
  | nil => intro edits; simp [Transform.removeUnusedImportsGo]
  | cons im rest ih =>
    intro edits
    rw [Transform.removeUnusedImportsGo]
    by_cases hc : Transform.importHasUsed A src im
    · rw [if_pos hc, ih, List.filter_cons]
      simp [hc]
    · rw [if_neg hc, ih, List.filter_cons]
      simp [hc]

/-- C4 (amended): `removeUnusedImports` queues one whole-statement removal
edit (trailing newline included when present) for exactly those import
statements none of whose bindings — default, named specifier by `name` or
`alias` field, or namespace — occurs as identifier text outside the
import-statement subtrees; it never removes individual specifiers, so on
`import {a,b} from 'm'; console.log(a);` the entire import (including `b`)
is retained unchanged. -/
theorem claim_C4_remove_unused_imports (root : TreeNode) (src : List Char) (edits : List Edit) :
    Transform.removeUnusedImports root src edits =
      edits ++ ((root.findAll "import_statement").filter fun im =>
          importUnusedSpec root src im).map fun im =>
        ⟨im.node.startIndex,
         if peekAt src im.node.endIndex = some '\n' then im.node.endIndex + 1
         else im.node.endIndex, []⟩ := by
  rw [Transform.removeUnusedImports, removeUnusedImportsGo_eq]
  congr 1
  congr 1
  refine List.filter_congr fun im _ => ?_
  rw [importHasUsed_eq_not_spec, Bool.not_not]

/-- Counterexample to C4 as stated: on
`import {a,b} from 'm'; console.log(a);`, `removeUnusedImports` queues no
edit at all — the specifier `a` is used, so the whole import statement
(including `b`) is retained — and rendering returns the source unchanged,
not the claimed `import {a} from 'm';` form with `b` dropped. -/
theorem claim_C4_counterexample :
    Transform.removeUnusedImports rootC4 srcC4 [] = [] ∧
      Transform.toString (Transform.removeUnusedImports rootC4 srcC4 []) srcC4 = .ok srcC4 ∧
      srcC4 ≠ "import \x7ba\x7d from \x27m\x27; console.log(a);".data := by
  refine ⟨by decide, ?_, by decide⟩
  have h : Transform.removeUnusedImports rootC4 srcC4 [] = [] := by decide
  rw [h]
  rfl

theorem claim_C6_has_not_partition (S X : String) (sel : Selector) (src : List Char)
    (t : TSNode)
    (hS : PatternParser.parse S = .ok sel)
    (h1 : PatternParser.parse (S ++ ":has(" ++ X ++ ")") =
      .ok (.combination (.cons sel (.cons (.pseudo "has" (some X)) .nil))))
    (h2 : PatternParser.parse (S ++ ":not(:has(" ++ X ++ "))") =
      .ok (.combination (.cons sel (.cons (.pseudo "not" (some (":has(" ++ X ++ ")"))) .nil))))
    (h3 : PatternParser.parse (":has(" ++ X ++ ")") = .ok (.pseudo "has" (some X)))
    (hshort : valuesShort sel S.length = true) :
    (∀ c, (c ∈ TreeNode.findAll ⟨src, t, []⟩ (S ++ ":has(" ++ X ++ ")") ∨
        c ∈ TreeNode.findAll ⟨src, t, []⟩ (S ++ ":not(:has(" ++ X ++ "))")) ↔
        c ∈ TreeNode.findAll ⟨src, t, []⟩ S) ∧
      ∀ c, c ∈ TreeNode.findAll ⟨src, t, []⟩ (S ++ ":has(" ++ X ++ ")") →
        c ∉ TreeNode.findAll ⟨src, t, []⟩ (S ++ ":not(:has(" ++ X ++ "))") := by
  have hlit1 : (":has(" : String).length = 5 := rfl
  have hlit2 : ((")") : String).length = 1 := rfl
  have hlit3 : ((":not(:has(") : String).length = 10 := rfl
  have hlit4 : (("))") : String).length = 2 := rfl
  have hlen1 : X.length < (S ++ ":has(" ++ X ++ ")").length := by
    rw [String.length_append, String.length_append, String.length_append]
    omega
  have hlenS1 : S.length ≤ (S ++ ":has(" ++ X ++ ")").length := by
    rw [String.length_append, String.length_append, String.length_append]
    omega
  have hlenW : (":has(" ++ X ++ ")" : String).length = X.length + 6 := by
    rw [String.length_append, String.length_append]
    omega
  have hlenV2 : (":has(" ++ X ++ ")" : String).length <
      (S ++ ":not(:has(" ++ X ++ "))").length := by
    rw [hlenW, String.length_append, String.length_append, String.length_append]
    omega
  have hlenS2 : S.length ≤ (S ++ ":not(:has(" ++ X ++ "))").length := by
    rw [String.length_append, String.length_append, String.length_append]
    omega
  have hlenXW : X.length < (":has(" ++ X ++ ")" : String).length := by
    rw [hlenW]
    omega
  have hvals : ∀ v ∈ selValues sel, v.length < S.length := by
    intro v hv
    have := (List.all_eq_true.mp hshort) v hv
    simpa using this
  -- the compiled selector part agrees with the predicate of S under any
  -- sufficiently large fuel bound
  have hselAgree : ∀ (F : Nat), S.length ≤ F →
      ∀ c, compileWith (fun v => if v.length < F then parsePredN F v else fun _ => false)
          sel c = PatternParser.parsePredicate S c := by
    intro F hF c
    rw [parsePredicate_of_ok S sel hS c]
    refine compileWith_congr _ _ sel (fun v hv d => ?_) c
    have hvS : v.length < S.length := hvals v hv
    have hvF : v.length < F := Nat.lt_of_lt_of_le hvS hF
    rw [if_pos hvF, if_pos hvS]
    exact parsePredN_stable F S.length v (Nat.le_of_lt hvF) (Nat.le_of_lt hvS) d
  -- predicate of S ++ :has(X)
  have hp1 : ∀ c, PatternParser.parsePredicate (S ++ ":has(" ++ X ++ ")") c =
      (PatternParser.parsePredicate S c &&
        TreeNode.strictDescAny c (PatternParser.parsePredicate X)) := by
    intro c
    rw [parsePredicate_of_ok _ _ h1 c]
    simp only [compileWith, compileListWith, Bool.and_true]
    congr 1
    · exact hselAgree _ hlenS1 c
    · rw [if_pos trivial]
      rw [TreeNode.strictDescAny, TreeNode.strictDescAny]
      refine TSForest.descAnyAux_congr _ _ (fun d => ?_) _ _ _
      rw [if_pos hlen1]
      exact (parsePredicate_eq_parsePredN X _ (Nat.le_of_lt hlen1) d).symm
  -- predicate of S ++ :not(:has(X))
  have hp2 : ∀ c, PatternParser.parsePredicate (S ++ ":not(:has(" ++ X ++ "))") c =
      (PatternParser.parsePredicate S c &&
        !(TreeNode.strictDescAny c (PatternParser.parsePredicate X))) := by
    intro c
    rw [parsePredicate_of_ok _ _ h2 c]
    simp only [compileWith, compileListWith, Bool.and_true]
    congr 1
    · exact hselAgree _ hlenS2 c
    · rw [if_neg (by decide : ¬ ("not" : String) = "has"), if_pos trivial]
      have hw : (if (":has(" ++ X ++ ")" : String).length <
            (S ++ ":not(:has(" ++ X ++ "))").length then
            parsePredN (S ++ ":not(:has(" ++ X ++ "))").length (":has(" ++ X ++ ")")
          else fun _ => false) c = PatternParser.parsePredicate (":has(" ++ X ++ ")") c := by
        rw [if_pos hlenV2]
        exact (parsePredicate_eq_parsePredN (":has(" ++ X ++ ")") _
          (Nat.le_of_lt hlenV2) c).symm
      rw [hw, parsePredicate_of_ok _ _ h3 c]
      congr 1
      simp only [compileWith]
      rw [if_pos trivial]
      rw [TreeNode.strictDescAny, TreeNode.strictDescAny]
      refine TSForest.descAnyAux_congr _ _ (fun d => ?_) _ _ _
      rw [if_pos hlenXW]
      exact (parsePredicate_eq_parsePredN X _ (Nat.le_of_lt hlenXW) d).symm
  -- membership forms
  have hmem : ∀ (P : String) (c : TreeNode),
      c ∈ TreeNode.findAll ⟨src, t, []⟩ P ↔
        c ∈ TreeNode.preorderList ⟨src, t, []⟩ ∧
          PatternParser.parsePredicate P c = true := by
    intro P c
    rw [TreeNode.findAll, TreeNode.findAllNodes_eq_filter, List.mem_filter]
  constructor
  · intro c
    rw [hmem, hmem, hmem]
    constructor
    · rintro (⟨hpre, hp⟩ | ⟨hpre, hp⟩)
      · rw [hp1] at hp
        exact ⟨hpre, (Bool.and_eq_true_iff.mp hp).1⟩
      · rw [hp2] at hp
        exact ⟨hpre, (Bool.and_eq_true_iff.mp hp).1⟩
    · rintro ⟨hpre, hp⟩
      cases hd : TreeNode.strictDescAny c (PatternParser.parsePredicate X) with
      | true => exact Or.inl ⟨hpre, by rw [hp1, hp, hd]; rfl⟩
      | false => exact Or.inr ⟨hpre, by rw [hp2, hp, hd]; rfl⟩
  · intro c hcin hcin2
    rw [hmem] at hcin hcin2
    have ha := hcin.2
    have hb := hcin2.2
    rw [hp1] at ha
    rw [hp2] at hb
    have hd1 := (Bool.and_eq_true_iff.mp ha).2
    have hd2 := (Bool.and_eq_true_iff.mp hb).2
    rw [hd1] at hd2
    simp at hd2

/-- Counterexample to C6 as stated: with `S = ""` and `X = "a"`, the patterns
`:has(a)` and `:not(:has(a))` each select one node of `treeC6`, but
`findAll("")` is empty (the empty pattern fails to parse and the compiled
predicate is the fail-closed `() => false`), so the union of the two result
sets cannot equal `findAll(S)`. -/
theorem claim_C6_counterexample :
    (TreeNode.findAll ⟨srcC6, treeC6, []⟩ ("" ++ ":has(" ++ "a" ++ ")")).length = 1 ∧
    (TreeNode.findAll ⟨srcC6, treeC6, []⟩ ("" ++ ":not(:has(" ++ "a" ++ "))")).length = 1 ∧
    (TreeNode.findAll ⟨srcC6, treeC6, []⟩ "").length = 0 :=
  ⟨rfl, rfl, rfl⟩

/-- Witness for C6: the partition equivalence of the amended claim evaluated
at the root of `treeW6` for `S = "a"`, `X = "b"`. -/
theorem claim_C6_has_not_partition_witness :
    (⟨srcW6, treeW6, []⟩ : TreeNode) ∈
        TreeNode.findAll ⟨srcW6, treeW6, []⟩ ("a" ++ ":has(" ++ "b" ++ ")") ∨
      (⟨srcW6, treeW6, []⟩ : TreeNode) ∈
        TreeNode.findAll ⟨srcW6, treeW6, []⟩ ("a" ++ ":not(:has(" ++ "b" ++ "))") ↔
      (⟨srcW6, treeW6, []⟩ : TreeNode) ∈ TreeNode.findAll ⟨srcW6, treeW6, []⟩ "a" :=
  (claim_C6_has_not_partition "a" "b" (.typeSel "a") srcW6 treeW6
    (by rfl) (by rfl) (by rfl) (by rfl) (by rfl)).1 ⟨srcW6, treeW6, []⟩
